import Mathlib

/-!
Verification of the Akumuli block codec (`storage_engine/compression.h`)

This file gives a shallow embedding of the compression subsystem of the
Akumuli time-series database and proves the specified properties about it.

Modelling conventions:
* `u64` values are `Nat` together with explicit `% 2^64` wherever the C++
  code performs wrapping arithmetic; `i64` values are modelled by their
  64-bit two's complement bit pattern (a `Nat` below `2^64`).
* A byte buffer is a `List Nat` of values below 256.
* The `Base128StreamWriter` is a capacity plus the list of bytes written so
  far (the region `[begin_, pos_)`); a `put` that fails leaves the list
  unchanged, which models the C++ contract that `pos_` is not advanced on
  failure (bytes scribbled beyond `pos_` are unobservable).
* Fallible operations return `Option` (or a `Bool × state` pair when the
  C++ code both returns a flag and mutates state).
-/

namespace Akumuli

/-! ## Arithmetic toolkit for the bitwise operations used by the codec -/

theorem testBit_false_of_lt {a i : Nat} (h : a < 2 ^ i) : a.testBit i = false := by
  rw [Nat.testBit_to_div_mod, decide_eq_false_iff_not]
  rw [Nat.div_eq_of_lt h]
  omega

/-- Disjoint-or is addition: when `a` fits below bit `k`,
`a ||| b * 2^k = a + b * 2^k`. -/
theorem lor_mul_pow_eq_add {a : Nat} (b k : Nat) (h : a < 2 ^ k) :
    a ||| b * 2 ^ k = a + b * 2 ^ k := by
  apply Nat.eq_of_testBit_eq
  intro i
  rw [Nat.testBit_lor]
  rcases Nat.lt_or_ge i k with hi | hi
  · have e1 : b * 2 ^ k = b * 2 ^ (k - i) * 2 ^ i := by
      rw [Nat.mul_assoc, ← pow_add]; congr 2; omega
    have e3 : b * 2 ^ (k - i) = 2 * (b * 2 ^ (k - i - 1)) := by
      have e4 : (2 : Nat) ^ (k - i) = 2 * 2 ^ (k - i - 1) := by
        rw [← pow_succ']; congr 1; omega
      rw [e4]; ring
    have hb : (b * 2 ^ k).testBit i = false := by
      rw [Nat.testBit_to_div_mod, decide_eq_false_iff_not, e1,
        Nat.mul_div_cancel _ (Nat.pos_pow_of_pos i (by omega)), e3]
      omega
    have hsum : (a + b * 2 ^ k).testBit i = a.testBit i := by
      rw [Nat.testBit_to_div_mod, Nat.testBit_to_div_mod, e1,
        Nat.add_mul_div_right _ _ (Nat.pos_pow_of_pos i (by omega)),
        decide_eq_decide, e3]
      omega
    rw [hb, hsum, Bool.or_false]
  · have ha : a.testBit i = false :=
      testBit_false_of_lt (lt_of_lt_of_le h (Nat.pow_le_pow_right (by omega) hi))
    have e1 : (2 : Nat) ^ i = 2 ^ k * 2 ^ (i - k) := by
      rw [← pow_add]; congr 1; omega
    have hb : (b * 2 ^ k).testBit i = decide (b / 2 ^ (i - k) % 2 = 1) := by
      rw [Nat.testBit_to_div_mod, e1, ← Nat.div_div_eq_div_mul,
        Nat.mul_div_cancel _ (Nat.pos_pow_of_pos k (by omega))]
    have hsum : (a + b * 2 ^ k).testBit i = decide (b / 2 ^ (i - k) % 2 = 1) := by
      rw [Nat.testBit_to_div_mod, e1, ← Nat.div_div_eq_div_mul,
        Nat.add_mul_div_right _ _ (Nat.pos_pow_of_pos k (by omega)),
        Nat.div_eq_of_lt h, Nat.zero_add]
    rw [ha, hb, hsum, Bool.false_or]

/-- Xor with an all-ones mask is complement: for `a < 2^n`,
`a ^^^ (2^n - 1) = 2^n - 1 - a`. -/
theorem xor_all_ones {a : Nat} (n : Nat) (h : a < 2 ^ n) :
    a ^^^ (2 ^ n - 1) = 2 ^ n - 1 - a := by
  have h1 : a ^^^ (2 ^ n - 1) = (BitVec.ofNat n a ^^^ BitVec.allOnes n).toNat := by
    rw [BitVec.toNat_xor, BitVec.toNat_ofNat, BitVec.toNat_allOnes, Nat.mod_eq_of_lt h]
  rw [h1, BitVec.xor_allOnes, BitVec.toNat_not, BitVec.toNat_ofNat, Nat.mod_eq_of_lt h]

theorem and_127_eq_mod (x : Nat) : x &&& 127 = x % 128 := by
  have := Nat.and_pow_two_sub_one_eq_mod x 7
  norm_num at this
  exact this

theorem and_255_eq_mod (x : Nat) : x &&& 255 = x % 256 := by
  have := Nat.and_pow_two_sub_one_eq_mod x 8
  norm_num at this
  exact this

theorem and_15_eq_mod (x : Nat) : x &&& 15 = x % 16 := by
  have := Nat.and_pow_two_sub_one_eq_mod x 4
  norm_num at this
  exact this

theorem lor_128_eq_add {a : Nat} (h : a < 128) : a ||| 128 = a + 128 := by
  have := @lor_mul_pow_eq_add a 1 7 (by omega)
  norm_num at this
  exact this

theorem and_128_of_ge {b : Nat} (h1 : 128 ≤ b) (h2 : b < 256) : b &&& 128 = 128 := by
  have := Nat.and_two_pow b 7
  have ht : b.testBit 7 = true := by
    rw [Nat.testBit_to_div_mod]
    have : b / 2 ^ 7 = 1 := by norm_num; omega
    rw [this]
    norm_num
  rw [ht] at this
  norm_num at this
  exact this

theorem and_128_of_lt {b : Nat} (h : b < 128) : b &&& 128 = 0 := by
  have := Nat.and_two_pow b 7
  have ht : b.testBit 7 = false := testBit_false_of_lt (by norm_num; omega)
  rw [ht] at this
  norm_num at this
  exact this

theorem shiftLeft_lor_nibble {f1 f2 : Nat} (h2 : f2 < 16) :
    (f1 <<< 4) ||| f2 = f1 * 16 + f2 := by
  rw [Nat.shiftLeft_eq, Nat.lor_comm]
  have := @lor_mul_pow_eq_add f2 f1 4 (by omega)
  norm_num at this ⊢
  omega

/-! ## `Base128Int` / `Base128StreamWriter` / `Base128StreamReader`

Embedding of the LEB128 codec of `compression.h` (lines 63-241), instantiated
at `TVal = u64`.  A value is a `Nat`; the wrapping of u64 arithmetic is the
explicit `% 2^64` in the decoder's accumulator. -/

/-- `Base128Int::put` (compression.h:104-126): the byte-emitting loop.
`space` is the room left in the buffer (`end_ - p`); the loop writes
`value & 0x7F`, shifts `value >>= 7`, sets the continuation bit `0x80` when
more bytes follow, and fails (returning `begin`, i.e. `none`) if it reaches
`end` first. -/
def encLoop : Nat → Nat → Option (List Nat)
  | 0, _ => none
  | s + 1, v =>
    let b := v &&& 127
    let v' := v >>> 7
    if v' = 0 then some [b]
    else
      match encLoop s v' with
      | none => none
      | some rest => some ((b ||| 128) :: rest)

/-- `Base128StreamWriter` (compression.h:133-206): the underlying byte
stream.  `out` is the region `[begin_, pos_)` already written, `cap` is
`end_ - begin_`. -/
structure BW where
  cap : Nat
  out : List Nat
  deriving Repr, DecidableEq

def BW.spaceLeft (w : BW) : Nat := w.cap - w.out.length

/-- `Base128StreamWriter::put` (compression.h:167-175): on failure
(`val.put` returned `begin`) the cursor is not advanced, modelled by
returning `none` and the caller keeping the old state. -/
def BW.put (w : BW) (v : Nat) : Option BW :=
  match encLoop w.spaceLeft v with
  | none => none
  | some bs => some ⟨w.cap, w.out ++ bs⟩

/-- `Base128StreamWriter::tput` (compression.h:153-163): transactional
multi-put; on the first failing `put` the old cursor is restored (the
caller keeps the pre-call state when the result is `none`). -/
def BW.tput (w : BW) : List Nat → Option BW
  | [] => some w
  | v :: vs =>
    match w.put v with
    | none => none
    | some w' => w'.tput vs

/-- `Base128Int::get` (compression.h:79-99) at `TVal = u64`: reads bytes,
accumulating `acc |= (b & 0x7F) << cnt` (u64 wrap made explicit), stopping
at the first byte without the `0x80` continuation bit; reaching `end`
mid-value returns `begin`, i.e. `none`. -/
def decLoop : List Nat → Nat → Nat → Option (Nat × List Nat)
  | [], _, _ => none
  | b :: t, acc, cnt =>
    let acc' := (acc ||| (b &&& 127) <<< cnt) % 2 ^ 64
    if b &&& 128 = 0 then some (acc', t) else decLoop t acc' (cnt + 7)

/-- `Base128StreamReader::next` (compression.h:217-225): `none` models the
`AKU_PANIC("can't read value, out of bounds")` error path.  The reader
state is the byte slice `[pos_, end_)`. -/
def b128next (bs : List Nat) : Option (Nat × List Nat) := decLoop bs 0 0

theorem encLoop_ne_nil {s v : Nat} {bs : List Nat} (h : encLoop s v = some bs) :
    bs ≠ [] := by
  cases s with
  | zero => simp [encLoop] at h
  | succ s =>
    simp only [encLoop] at h
    split at h
    · simp only [Option.some.injEq] at h
      rw [← h]
      simp
    · split at h
      · exact absurd h (by simp)
      · simp only [Option.some.injEq] at h
        rw [← h]
        simp

/-- Generalized decode-of-encode: the `Base128Int::get` loop, entered with
partial accumulator `acc` at shift `cnt`, recovers the encoded value. -/
theorem decLoop_encLoop :
    ∀ (s v : Nat) (bs : List Nat), encLoop s v = some bs →
    ∀ (acc cnt : Nat), v < 2 ^ (64 - cnt) → acc < 2 ^ cnt → cnt ≤ 63 →
    ∀ rest, decLoop (bs ++ rest) acc cnt = some (acc + v * 2 ^ cnt, rest) := by
  intro s
  induction s with
  | zero => intro v bs h; simp [encLoop] at h
  | succ s ih =>
    intro v bs h acc cnt hv hacc hcnt rest
    simp only [encLoop] at h
    rw [Nat.shiftRight_eq_div_pow] at h
    norm_num at h
    by_cases h7 : v / 128 = 0
    · rw [if_pos h7] at h
      have hv128 : v < 128 := by
        rcases Nat.lt_or_ge v 128 with h' | h'
        · exact h'
        · exact absurd h7 (by omega)
      have hb : v &&& 127 = v := by
        rw [and_127_eq_mod, Nat.mod_eq_of_lt hv128]
      cases h
      simp only [List.cons_append, List.nil_append, decLoop]
      rw [hb, and_128_of_lt hv128, if_pos rfl]
      rw [hb, Nat.shiftLeft_eq, lor_mul_pow_eq_add _ _ hacc]
      have hfit : acc + v * 2 ^ cnt < 2 ^ 64 := by
        have e : (2 : Nat) ^ 64 = 2 ^ (64 - cnt) * 2 ^ cnt := by
          rw [← pow_add]; congr 1; omega
        have : (v + 1) * 2 ^ cnt ≤ 2 ^ (64 - cnt) * 2 ^ cnt :=
          Nat.mul_le_mul_right _ (by omega)
        have hc : (0:Nat) < 2 ^ cnt := Nat.pos_pow_of_pos cnt (by omega)
        nlinarith
      rw [Nat.mod_eq_of_lt hfit]
      simp
    · rw [if_neg h7] at h
      rcases hrec : encLoop s (v / 128) with _ | rest'
      · rw [hrec] at h; simp at h
      · rw [hrec] at h
        simp only [Option.some.injEq] at h
        cases h
        have hv128 : 128 ≤ v := by
          rcases Nat.lt_or_ge v 128 with h' | h'
          · exact absurd (Nat.div_eq_of_lt h') h7
          · exact h'
        have hcnt8 : cnt ≤ 56 := by
          by_contra hc
          have h1 : 64 - cnt ≤ 7 := by omega
          have : (2:Nat) ^ (64 - cnt) ≤ 2 ^ 7 := Nat.pow_le_pow_right (by omega) h1
          norm_num at this; omega
        have hmod : v &&& 127 = v % 128 := and_127_eq_mod v
        have hmodlt : v % 128 < 128 := Nat.mod_lt _ (by omega)
        have hbyte : (v &&& 127) ||| 128 = v % 128 + 128 := by
          rw [hmod]; exact lor_128_eq_add hmodlt
        simp only [List.cons_append, decLoop]
        rw [hbyte, and_128_of_ge (by omega) (by omega), if_neg (by omega)]
        have hb127 : (v % 128 + 128) &&& 127 = v % 128 := by
          rw [and_127_eq_mod]; omega
        rw [hb127, Nat.shiftLeft_eq, lor_mul_pow_eq_add _ _ hacc]
        have hacc' : acc + v % 128 * 2 ^ cnt < 2 ^ (cnt + 7) := by
          have e : (2 : Nat) ^ (cnt + 7) = 2 ^ cnt * 128 := by
            rw [pow_add]; norm_num
          nlinarith [pow_pos (show (0 : Nat) < 2 by omega) cnt]
        have hacc64 : acc + v % 128 * 2 ^ cnt < 2 ^ 64 := by
          have : (2:Nat) ^ (cnt + 7) ≤ 2 ^ 64 := Nat.pow_le_pow_right (by omega) (by omega)
          omega
        rw [Nat.mod_eq_of_lt hacc64]
        have hv' : v / 128 < 2 ^ (64 - (cnt + 7)) := by
          have e : (2 : Nat) ^ (64 - cnt) = 2 ^ (64 - (cnt + 7)) * 128 := by
            rw [show (128 : Nat) = 2 ^ 7 by norm_num, ← pow_add]
            congr 1; omega
          rw [Nat.div_lt_iff_lt_mul (by omega)]
          omega
        have := ih (v / 128) rest' hrec (acc + v % 128 * 2 ^ cnt) (cnt + 7)
          hv' hacc' (by omega) rest
        simp only [List.append_eq]
        rw [this]
        congr 2
        conv_rhs => rw [← Nat.div_add_mod v 128]
        rw [pow_add]
        ring

/-- Decoding the bytes produced by `Base128Int::put` for a `u64` value
returns that value and consumes exactly those bytes. -/
theorem b128next_enc {s v : Nat} {bs : List Nat} (hv : v < 2 ^ 64)
    (h : encLoop s v = some bs) (rest : List Nat) :
    b128next (bs ++ rest) = some (v, rest) := by
  have := decLoop_encLoop s v bs h 0 0 (by norm_num; omega) (by norm_num) (by omega) rest
  simpa [b128next] using this

/-- Structural bounds on the encoding: `|bs|` bytes hold values below
`128^|bs|`, at least one byte is emitted, and (for 2 or more bytes) the
value needs the extra bytes. -/
theorem encLoop_bounds :
    ∀ (s v : Nat) (bs : List Nat), encLoop s v = some bs →
      1 ≤ bs.length ∧ v < 128 ^ bs.length ∧
      (2 ≤ bs.length → 128 ^ (bs.length - 1) ≤ v) := by
  intro s
  induction s with
  | zero => intro v bs h; simp [encLoop] at h
  | succ s ih =>
    intro v bs h
    simp only [encLoop] at h
    rw [Nat.shiftRight_eq_div_pow] at h
    norm_num at h
    by_cases h7 : v / 128 = 0
    · rw [if_pos h7] at h
      simp only [Option.some.injEq] at h
      rw [← h]
      simp only [List.length_cons, List.length_nil]
      refine ⟨by omega, by norm_num; omega, by omega⟩
    · rw [if_neg h7] at h
      rcases hrec : encLoop s (v / 128) with _ | rest'
      · rw [hrec] at h; simp at h
      · rw [hrec] at h
        simp only [Option.some.injEq] at h
        rw [← h]
        obtain ⟨h1, h2, h3⟩ := ih (v / 128) rest' hrec
        simp only [List.length_cons]
        have hv128 : 128 ≤ v := by
          rcases Nat.lt_or_ge v 128 with h' | h'
          · exact absurd (Nat.div_eq_of_lt h') h7
          · exact h'
        refine ⟨by omega, ?_, ?_⟩
        · have e : (128 : Nat) ^ (rest'.length + 1) = 128 ^ rest'.length * 128 :=
            pow_succ 128 rest'.length
          have hdm := Nat.div_add_mod v 128
          have hmlt : v % 128 < 128 := Nat.mod_lt _ (by omega)
          have hstep : 128 * (v / 128) ≤ 128 * (128 ^ rest'.length - 1) :=
            Nat.mul_le_mul_left 128 (by omega)
          have hpos : (0:Nat) < 128 ^ rest'.length := Nat.pos_pow_of_pos _ (by omega)
          omega
        · intro _
          simp only [Nat.add_sub_cancel]
          rcases Nat.lt_or_ge rest'.length 2 with hl | hl
          · have hL1 : rest'.length = 1 := by omega
            rw [hL1]
            norm_num
            omega
          · have hlow := h3 hl
            have e : (128 : Nat) ^ rest'.length = 128 * 128 ^ (rest'.length - 1) := by
              conv_lhs => rw [show rest'.length = (rest'.length - 1) + 1 by omega]
              rw [pow_succ]
              ring
            have hstep : 128 * 128 ^ (rest'.length - 1) ≤ 128 * (v / 128) :=
              Nat.mul_le_mul_left 128 hlow
            have hdm := Nat.div_add_mod v 128
            omega

/-- The byte length of the LEB128 encoding is `max 1 ⌈bitlen(v)/7⌉`
(with `bitlen = Nat.size`, the binary length). -/
theorem encLoop_length {s v : Nat} {bs : List Nat} (h : encLoop s v = some bs) :
    bs.length = max 1 ((Nat.size v + 6) / 7) := by
  obtain ⟨h1, h2, h3⟩ := encLoop_bounds s v bs h
  have hpow : ∀ k : Nat, (128 : Nat) ^ k = 2 ^ (7 * k) := by
    intro k
    rw [pow_mul]
    norm_num
  by_cases hv0 : v = 0
  · subst hv0
    have hL : bs.length = 1 := by
      by_contra hL
      have := h3 (by omega)
      have : (0:Nat) < 128 ^ (bs.length - 1) := Nat.pos_pow_of_pos _ (by omega)
      omega
    rw [hL]
    simp [Nat.size_zero]
  · have hsz_up : Nat.size v ≤ 7 * bs.length := by
      rw [Nat.size_le, ← hpow]
      exact h2
    have hsz_lo : 0 < Nat.size v := by
      rw [Nat.lt_size]
      norm_num
      omega
    rcases Nat.lt_or_ge bs.length 2 with hL | hL
    · have hL1 : bs.length = 1 := by omega
      rw [hL1] at hsz_up ⊢
      omega
    · have := h3 hL
      have hsz_lo2 : 7 * (bs.length - 1) < Nat.size v := by
        rw [Nat.lt_size, ← hpow]
        exact this
      omega

/-- With `128^s` headroom (so 10 bytes for any `u64`), the encoder
succeeds. -/
theorem encLoop_some :
    ∀ (s v : Nat), 1 ≤ s → v < 128 ^ s → ∃ bs, encLoop s v = some bs := by
  intro s
  induction s with
  | zero => omega
  | succ s ih =>
    intro v _ hv
    simp only [encLoop]
    rw [Nat.shiftRight_eq_div_pow]
    norm_num
    by_cases h7 : v / 128 = 0
    · rw [if_pos h7]
      exact ⟨_, rfl⟩
    · rw [if_neg h7]
      have hv128 : 128 ≤ v := by
        rcases Nat.lt_or_ge v 128 with h' | h'
        · exact absurd (Nat.div_eq_of_lt h') h7
        · exact h'
      have hs1 : 1 ≤ s := by
        by_contra hs
        have : s = 0 := by omega
        subst this
        norm_num at hv
        omega
      have hvs : v / 128 < 128 ^ s := by
        rw [Nat.div_lt_iff_lt_mul (by norm_num), ← pow_succ]
        exact hv
      obtain ⟨bs, hbs⟩ := ih (v / 128) hs1 hvs
      rw [hbs]
      exact ⟨_, rfl⟩

theorem encLoop_zero {s : Nat} (hs : 1 ≤ s) : encLoop s 0 = some [0] := by
  cases s with
  | zero => omega
  | succ s => simp [encLoop]

/-- A buffer in which every remaining byte has the continuation bit set
(or that is empty) makes the decode loop fail. -/
theorem decLoop_all_continuation :
    ∀ (bs : List Nat) (acc cnt : Nat), (∀ b ∈ bs, b &&& 128 ≠ 0) →
      decLoop bs acc cnt = none := by
  intro bs
  induction bs with
  | nil => intro acc cnt _; rfl
  | cons b t ih =>
    intro acc cnt hall
    simp only [decLoop]
    rw [if_neg (hall b (by simp))]
    exact ih _ _ (fun x hx => hall x (by simp [hx]))

/-- C3. VarInt bijection and length: for every `u < 2^64` and every buffer
with at least 10 free bytes, `Base128StreamWriter::put(u)` succeeds and
writes exactly `max(1, ceil(bitlen(u)/7))` bytes (`u = 0` writes the single
byte `0x00`), and `Base128StreamReader::next` over those bytes returns `u`
and consumes exactly those bytes. -/
theorem claim_C3_varint_bijection (u : Nat) (w : BW) (hu : u < 2 ^ 64)
    (hsp : 10 ≤ w.spaceLeft) :
    ∃ bs, encLoop w.spaceLeft u = some bs ∧
      BW.put w u = some ⟨w.cap, w.out ++ bs⟩ ∧
      bs.length = max 1 ((Nat.size u + 6) / 7) ∧
      (u = 0 → bs = [0]) ∧
      ∀ rest, b128next (bs ++ rest) = some (u, rest) := by
  have hmono : (128 : Nat) ^ 10 ≤ 128 ^ w.spaceLeft :=
    Nat.pow_le_pow_right (by norm_num) hsp
  have hup : u < 128 ^ w.spaceLeft := by
    have h64 : (2 : Nat) ^ 64 < 128 ^ 10 := by norm_num
    omega
  obtain ⟨bs, hbs⟩ := encLoop_some w.spaceLeft u (by omega) hup
  refine ⟨bs, hbs, ?_, encLoop_length hbs, ?_, fun rest => b128next_enc hu hbs rest⟩
  · rw [BW.put, hbs]
  · intro h0
    subst h0
    rw [encLoop_zero (by omega)] at hbs
    simp only [Option.some.injEq] at hbs
    exact hbs.symm

/-- Witness for C3 at `u = 300` over an empty 12-byte buffer. -/
theorem claim_C3_witness :
    (300 : Nat) < 2 ^ 64 ∧ 10 ≤ (BW.mk 12 []).spaceLeft ∧
      ∃ bs, encLoop (BW.mk 12 []).spaceLeft 300 = some bs ∧
        BW.put (BW.mk 12 []) 300 = some ⟨(BW.mk 12 []).cap, (BW.mk 12 []).out ++ bs⟩ ∧
        bs.length = max 1 ((Nat.size 300 + 6) / 7) ∧
        ((300 : Nat) = 0 → bs = [0]) ∧
        ∀ rest, b128next (bs ++ rest) = some (300, rest) :=
  ⟨by norm_num, by decide, claim_C3_varint_bijection 300 (BW.mk 12 []) (by norm_num) (by decide)⟩

/-- C6. Truncation rejection: over an input slice that is empty or whose
every byte has the continuation bit `0x80` set, `Base128StreamReader::next`
takes the out-of-bounds error path (`none`, the `AKU_PANIC` in the C++)
instead of producing a value; the decode loop consumes only the given
slice and is total, so it cannot read past `end_` or loop forever. -/
theorem claim_C6_truncation_rejected (bs : List Nat)
    (h : ∀ b ∈ bs, b &&& 128 ≠ 0) : b128next bs = none :=
  decLoop_all_continuation bs 0 0 h

/-- Witness for C6 on the concrete truncated buffer `[0xFF, 0x81]`. -/
theorem claim_C6_witness :
    (∀ b ∈ [255, 129], b &&& 128 ≠ 0) ∧ b128next [255, 129] = none :=
  ⟨by decide, claim_C6_truncation_rejected [255, 129] (by decide)⟩

/-! ## `ZigZagStreamWriter` / `ZigZagStreamReader` at `TVal = i64`

`i64` values are represented by their two's-complement bit pattern
(a `Nat` below `2^64`). -/

/-- `ZigZagStreamWriter::put` (compression.h:262-267) at `TVal = i64`:
`(value << 1) ^ (value >> 63)` — the left shift wraps mod `2^64` and the
right shift is arithmetic, giving 0 for nonnegative and all-ones for
negative values. -/
def zigzag64 (x : Nat) : Nat :=
  (2 * x % 2 ^ 64) ^^^ (if 2 ^ 63 ≤ x then 2 ^ 64 - 1 else 0)

/-- `ZigZagStreamReader::next` (compression.h:280-283):
`(n >> 1) ^ (-(n & 1))` at `TVal = i64` — `n >> 1` is the *arithmetic*
shift (the sign bit is copied), and `-(n & 1)` is 0 or all-ones. -/
def unzigzag64 (n : Nat) : Nat :=
  (n / 2 + (if 2 ^ 63 ≤ n then 2 ^ 63 else 0)) ^^^
    (if n &&& 1 = 1 then 2 ^ 64 - 1 else 0)

/-- C4 counterexample: at `x = 2^62` the code's decode does **not** invert
the code's encode — the arithmetic right shift in
`ZigZagStreamReader::next` sign-extends the wrapped-negative zig-zag
pattern, returning the pattern of `-2^62` instead of `2^62`. -/
theorem claim_C4_counterexample :
    unzigzag64 (zigzag64 (2 ^ 62)) ≠ 2 ^ 62 ∧
      unzigzag64 (zigzag64 (2 ^ 62)) = 2 ^ 64 - 2 ^ 62 := by
  constructor <;> decide

/-- C4 (amended). `unzig(zig(x)) = x` holds exactly on the inputs whose
zig-zag image stays below `2^63`: all `x` with `-2^62 ≤ x < 2^62`
(in bit patterns: `x < 2^62` or `x ≥ 2^64 - 2^62`).  For `x = 2^62`
(magnitude `2^62` and above, positive side) the composition is *not* the
identity, see the counterexample. -/
theorem claim_C4_zigzag_bijection_amended (x : Nat) (hx : x < 2 ^ 64)
    (hrange : x < 2 ^ 62 ∨ 2 ^ 64 - 2 ^ 62 ≤ x) :
    unzigzag64 (zigzag64 x) = x := by
  rcases hrange with hlt | hge
  · have hz : zigzag64 x = 2 * x := by
      rw [zigzag64, if_neg (by omega), Nat.xor_zero, Nat.mod_eq_of_lt (by omega)]
    rw [hz, unzigzag64, if_neg (by omega), Nat.and_one_is_mod,
      if_neg (by omega), Nat.xor_zero]
    omega
  · have hsign : 2 ^ 63 ≤ x := by omega
    have hmod : 2 * x % 2 ^ 64 = 2 * x - 2 ^ 64 := by omega
    have hz : zigzag64 x = 2 ^ 64 - 1 - (2 * x - 2 ^ 64) := by
      rw [zigzag64, if_pos hsign, hmod]
      exact xor_all_ones 64 (by omega)
    set N := 2 ^ 64 - 1 - (2 * x - 2 ^ 64) with hN
    have hNodd : N % 2 = 1 := by omega
    have hNlt : N < 2 ^ 63 := by omega
    have hhalf : N / 2 = 2 ^ 64 - 1 - x := by omega
    rw [hz, unzigzag64, if_neg (by omega), Nat.and_one_is_mod, if_pos hNodd, hhalf]
    rw [xor_all_ones 64 (by omega)]
    omega

/-- Witness for the amended C4 at `x = -2^62` (pattern `2^64 - 2^62`). -/
theorem claim_C4_witness :
    (2 ^ 64 - 2 ^ 62 : Nat) < 2 ^ 64 ∧
      unzigzag64 (zigzag64 (2 ^ 64 - 2 ^ 62)) = 2 ^ 64 - 2 ^ 62 :=
  ⟨by norm_num,
    claim_C4_zigzag_bijection_amended (2 ^ 64 - 2 ^ 62) (by norm_num) (Or.inr (by norm_num))⟩

/-! ## `Base128Int::put` at a *signed* `TVal = i64` (claim C9) -/

/-- Arithmetic right shift by 7 of an i64 bit pattern: `value >>= 7` with
`TVal` signed — low 57 bits shift down, the top 7 bits are copies of the
sign bit. -/
def sar7 (x : Nat) : Nat :=
  if x < 2 ^ 63 then x / 128 else x / 128 + (2 ^ 64 - 2 ^ 57)

/-- `Base128Int::put` (compression.h:104-126) instantiated at the signed
`TVal = i64` of the `ZDeltaRLE` stack (compression.h:643-650): identical
loop, but `value >>= 7` is the arithmetic shift `sar7`. -/
def encLoopI64 : Nat → Nat → Option (List Nat)
  | 0, _ => none
  | s + 1, v =>
    let b := v &&& 127
    let v' := sar7 v
    if v' = 0 then some [b]
    else
      match encLoopI64 s v' with
      | none => none
      | some rest => some ((b ||| 128) :: rest)

/-- `Base128StreamWriter::put` at `TVal = i64`; `none` models the `false`
return with `pos_` unchanged. -/
def BW.putI64 (w : BW) (v : Nat) : Option BW :=
  match encLoopI64 w.spaceLeft v with
  | none => none
  | some bs => some ⟨w.cap, w.out ++ bs⟩

theorem encLoopI64_neg_none :
    ∀ (s v : Nat), 2 ^ 63 ≤ v → v < 2 ^ 64 → encLoopI64 s v = none := by
  intro s
  induction s with
  | zero => intro v _ _; rfl
  | succ s ih =>
    intro v h1 h2
    have hdiv : 2 ^ 56 ≤ v / 128 ∧ v / 128 < 2 ^ 57 := by omega
    have hv' : sar7 v = v / 128 + (2 ^ 64 - 2 ^ 57) := by
      rw [sar7, if_neg (by omega)]
    have hrange : 2 ^ 63 ≤ sar7 v ∧ sar7 v < 2 ^ 64 := by
      rw [hv']; omega
    simp only [encLoopI64]
    rw [if_neg (by omega), ih (sar7 v) hrange.1 hrange.2]

/-- C9. A negative `i64` (bit pattern with bit 63 set) can never be
encoded by the signed instantiation of `Base128Int::put`: the arithmetic
`value >>= 7` keeps the value negative forever, so the loop only stops by
hitting the end of the buffer and `put` reports failure (cursor not
advanced — the state is unchanged) for **every** finite buffer.
Consequently the `i64`-based `ZDeltaRLE` stack cannot encode any value
whose zig-zagged form has bit 63 set. -/
theorem claim_C9_negative_put_fails (w : BW) (v : Nat)
    (h1 : 2 ^ 63 ≤ v) (h2 : v < 2 ^ 64) : BW.putI64 w v = none := by
  rw [BW.putI64, encLoopI64_neg_none w.spaceLeft v h1 h2]

/-- Witness for C9: the zig-zag image of `2^62` (pattern `2^63`) cannot be
written into a 5-byte buffer (nor any other). -/
theorem claim_C9_witness :
    2 ^ 63 ≤ zigzag64 (2 ^ 62) ∧ zigzag64 (2 ^ 62) < 2 ^ 64 ∧
      BW.putI64 (BW.mk 5 []) (zigzag64 (2 ^ 62)) = none :=
  ⟨by decide, by decide,
    claim_C9_negative_put_fails (BW.mk 5 []) (zigzag64 (2 ^ 62)) (by decide) (by decide)⟩

/-! ## `RLEStreamWriter<u64>` / `DeltaStreamWriter` (the `DeltaRLEWriter`
timestamp stack, compression.h:420-482, 288-318, 652-655) -/

/-- u64 wrapping subtraction `v - p` (for `p < 2^64`). -/
def wsub64 (v p : Nat) : Nat := (v + 2 ^ 64 - p) % 2 ^ 64

/-- u64 wrapping addition. -/
def wadd64 (p d : Nat) : Nat := (p + d) % 2 ^ 64

/-- u64 wrapping decrement (`x--`), as performed on `reps_` by
`RLEStreamReader::next`. -/
def u64dec (r : Nat) : Nat := (r + (2 ^ 64 - 1)) % 2 ^ 64

/-- `RLEStreamWriter` state (compression.h:420-430): the shared byte
stream plus the pending run (`prev_`, `reps_`). -/
structure RLEW where
  bw : BW
  prev : Nat
  reps : Nat
  deriving Repr, DecidableEq

/-- The scan loop of `RLEStreamWriter::tput` (compression.h:436-448):
walks the chunk accumulating flushed `(reps, prev)` pairs into `outbuf`
(kept flat, as in the C++) and carrying the pending run. -/
def rleScan : Nat → Nat → List Nat → List Nat → Nat × Nat × List Nat
  | prev, reps, [], out => (prev, reps, out)
  | prev, reps, v :: t, out =>
    if v ≠ prev then
      rleScan v 1 t (if reps ≠ 0 then out ++ [reps, prev] else out)
    else
      rleScan prev (reps + 1) t out

/-- `RLEStreamWriter::tput` (compression.h:432-458): scans the chunk, adds
the final pending pair when `outpos < n * 2`, resets `prev_`/`reps_` to
zero, and writes all pair values through the transactional
`Base128StreamWriter::tput` (which restores the cursor on failure). -/
def rleTputB (st : RLEW) (xs : List Nat) : Bool × RLEW :=
  let (p, r, out) := rleScan st.prev st.reps xs []
  let outv := if out.length < 2 * xs.length then out ++ [r, p] else out
  match st.bw.tput outv with
  | none => (false, ⟨st.bw, 0, 0⟩)
  | some bw' => (true, ⟨bw', 0, 0⟩)

/-- `RLEStreamWriter::commit` (compression.h:481):
`stream_.put(reps_) && stream_.put(prev_) && stream_.commit()` — the
pending run state itself is not modified. -/
def rleCommitB (st : RLEW) : Bool × RLEW :=
  match st.bw.put st.reps with
  | none => (false, st)
  | some bw1 =>
    match bw1.put st.prev with
    | none => (false, ⟨bw1, st.prev, st.reps⟩)
    | some bw2 => (true, ⟨bw2, st.prev, st.reps⟩)

/-- `DeltaStreamWriter<RLEStreamWriter<u64>, u64>` = `DeltaRLEWriter`
(compression.h:652-653): RLE writer plus the delta `prev_`. -/
structure DRLEW where
  rle : RLEW
  prev : Nat
  deriving Repr, DecidableEq

/-- The delta transform of `DeltaStreamWriter::tput` (compression.h:300-305):
wrapping differences against the running `prev_`. -/
def deltasFrom : Nat → List Nat → List Nat
  | _, [] => []
  | prev, v :: t => wsub64 v prev :: deltasFrom v t

/-- The value of a running `prev_ = value` assignment over a list:
the last element, or the initial `d` when the list is empty. -/
def lastD : List Nat → Nat → Nat
  | [], d => d
  | v :: t, _ => lastD t v

/-- `DeltaStreamWriter::tput` (compression.h:296-307): computes the deltas
*and advances `prev_` to the last input* before handing the buffer to the
inner RLE `tput`; a failure of the inner stream is returned as `false` but
`prev_` keeps its advanced value. -/
def DRLEW.tputB (st : DRLEW) (xs : List Nat) : Bool × DRLEW :=
  let ds := deltasFrom st.prev xs
  let newPrev := lastD xs st.prev
  let (ok, rle') := rleTputB st.rle ds
  (ok, ⟨rle', newPrev⟩)

/-- `RLEStreamReader<u64>` (compression.h:484-504). -/
structure RLER where
  bs : List Nat
  reps : Nat
  prev : Nat
  deriving Repr, DecidableEq

/-- `RLEStreamReader::next` (compression.h:494-501): when the run counter
is zero, load a fresh `(reps, prev)` pair from the stream; then decrement
the counter (u64 wrap-around) and return `prev_`. -/
def RLER.next (st : RLER) : Option (Nat × RLER) :=
  if st.reps = 0 then
    match b128next st.bs with
    | none => none
    | some (r, bs1) =>
      match b128next bs1 with
      | none => none
      | some (p, bs2) => some (p, ⟨bs2, u64dec r, p⟩)
  else some (st.prev, ⟨st.bs, u64dec st.reps, st.prev⟩)

/-- `DeltaStreamReader<RLEStreamReader<u64>, u64>` = `DeltaRLEReader`
(compression.h:654-655). -/
structure DRLER where
  rle : RLER
  prev : Nat
  deriving Repr, DecidableEq

/-- `DeltaStreamReader::next` (compression.h:329-334). -/
def DRLER.next (st : DRLER) : Option (Nat × DRLER) :=
  match st.rle.next with
  | none => none
  | some (d, r') =>
    let v := wadd64 st.prev d
    some (v, ⟨r', v⟩)

/-- Successive `DeltaRLEReader::next` calls. -/
def DRLER.readN : Nat → DRLER → Option (List Nat × DRLER)
  | 0, st => some ([], st)
  | n + 1, st =>
    match st.next with
    | none => none
    | some (v, st') =>
      match DRLER.readN n st' with
      | none => none
      | some (vs, st'') => some (v :: vs, st'')

theorem encLoop_some64 {v : Nat} (s : Nat) (hv : v < 2 ^ 64) (hs : 10 ≤ s) :
    ∃ bs, encLoop s v = some bs := by
  apply encLoop_some s v (by omega)
  have hmono : (128 : Nat) ^ 10 ≤ 128 ^ s := Nat.pow_le_pow_right (by norm_num) hs
  have h64 : (2 : Nat) ^ 64 < 128 ^ 10 := by norm_num
  omega

theorem encLen_le_10 {s v : Nat} {bs : List Nat} (hv : v < 2 ^ 64)
    (h : encLoop s v = some bs) : bs.length ≤ 10 := by
  obtain ⟨h1, h2, h3⟩ := encLoop_bounds s v bs h
  by_contra hL
  have hlow := h3 (by omega)
  have hmono : (128 : Nat) ^ 10 ≤ 128 ^ (bs.length - 1) :=
    Nat.pow_le_pow_right (by norm_num) (by omega)
  have h64 : (2 : Nat) ^ 64 < 128 ^ 10 := by norm_num
  omega

/-- C8. `RLEStreamWriter::commit` always appends exactly one final
`(repeat-count, value)` pair — the LEB128 bytes of `reps_` then of
`prev_` — to the underlying stream (given room for the two VarInts); on a
writer on which no value was ever put (`reps_ = prev_ = 0`) it appends the
two bytes `0x00 0x00` even though the logical stream is empty. -/
theorem claim_C8_commit_emits_final_pair (st : RLEW)
    (hr : st.reps < 2 ^ 64) (hp : st.prev < 2 ^ 64) (hsp : 20 ≤ st.bw.spaceLeft) :
    ∃ b1 b2,
      rleCommitB st = (true, ⟨⟨st.bw.cap, st.bw.out ++ b1 ++ b2⟩, st.prev, st.reps⟩) ∧
      (∀ rest, b128next (b1 ++ rest) = some (st.reps, rest)) ∧
      (∀ rest, b128next (b2 ++ rest) = some (st.prev, rest)) ∧
      (st.reps = 0 → b1 = [0]) ∧ (st.prev = 0 → b2 = [0]) := by
  obtain ⟨b1, hb1⟩ := encLoop_some64 st.bw.spaceLeft hr (by omega)
  have hlen1 : b1.length ≤ 10 := encLen_le_10 hr hb1
  have hsp2 : 10 ≤ BW.spaceLeft ⟨st.bw.cap, st.bw.out ++ b1⟩ := by
    simp only [BW.spaceLeft, List.length_append] at hsp ⊢
    omega
  obtain ⟨b2, hb2⟩ := encLoop_some64 _ hp hsp2
  refine ⟨b1, b2, ?_, fun rest => b128next_enc hr hb1 rest,
    fun rest => b128next_enc hp hb2 rest, ?_, ?_⟩
  · have e1 : st.bw.put st.reps = some ⟨st.bw.cap, st.bw.out ++ b1⟩ := by
      rw [BW.put, hb1]
    have e2 : BW.put ⟨st.bw.cap, st.bw.out ++ b1⟩ st.prev =
        some ⟨st.bw.cap, st.bw.out ++ b1 ++ b2⟩ := by
      rw [BW.put, hb2]
    simp only [rleCommitB, e1, e2]
  · intro h0
    rw [h0, encLoop_zero (by omega)] at hb1
    simp only [Option.some.injEq] at hb1
    exact hb1.symm
  · intro h0
    rw [h0, encLoop_zero (by omega)] at hb2
    simp only [Option.some.injEq] at hb2
    exact hb2.symm

/-- Witness for C8 on a freshly constructed RLE writer over an empty
24-byte stream: commit appends exactly `[0x00, 0x00]`. -/
theorem claim_C8_witness :
    (RLEW.mk (BW.mk 24 []) 0 0).reps < 2 ^ 64 ∧
      (RLEW.mk (BW.mk 24 []) 0 0).prev < 2 ^ 64 ∧
      20 ≤ (RLEW.mk (BW.mk 24 []) 0 0).bw.spaceLeft ∧
      ∃ b1 b2,
        rleCommitB (RLEW.mk (BW.mk 24 []) 0 0) =
          (true, ⟨⟨24, ([] : List Nat) ++ b1 ++ b2⟩, 0, 0⟩) ∧
        (∀ rest, b128next (b1 ++ rest) = some (0, rest)) ∧
        (∀ rest, b128next (b2 ++ rest) = some (0, rest)) ∧
        ((0 : Nat) = 0 → b1 = [0]) ∧ ((0 : Nat) = 0 → b2 = [0]) :=
  ⟨by decide, by decide, by decide,
    claim_C8_commit_emits_final_pair (RLEW.mk (BW.mk 24 []) 0 0)
      (by decide) (by decide) (by decide)⟩

/-- C10. A loaded pair with repeat-count 0 is not skipped:
`RLEStreamReader::next` decrements the counter before use, wrapping to
`2^64 - 1`, and returns the pair's value; all subsequent calls with a
nonzero counter return the same value, consume no stream bytes, and
decrement the counter, until it is exhausted. -/
theorem claim_C10_zero_count_pair (bs bs1 rest : List Nat) (v p0 : Nat)
    (h1 : b128next bs = some (0, bs1)) (h2 : b128next bs1 = some (v, rest)) :
    RLER.next ⟨bs, 0, p0⟩ = some (v, ⟨rest, 2 ^ 64 - 1, v⟩) ∧
      ∀ (reps prev : Nat) (bs' : List Nat), reps ≠ 0 → reps < 2 ^ 64 →
        RLER.next ⟨bs', reps, prev⟩ = some (prev, ⟨bs', reps - 1, prev⟩) := by
  constructor
  · rw [RLER.next]
    have hd : u64dec 0 = 2 ^ 64 - 1 := by rw [u64dec]; norm_num
    simp only [if_pos rfl, h1, h2, hd]
    simp
  · intro reps prev bs' hne hlt
    rw [RLER.next]
    have hd : u64dec reps = reps - 1 := by rw [u64dec]; omega
    simp only [if_neg hne, hd]

/-- Witness for C10 on the byte stream `[0x00, 0x2A]` (pair `(0, 42)`). -/
theorem claim_C10_witness :
    b128next [0, 42] = some (0, [42]) ∧ b128next [42] = some (42, []) ∧
      (RLER.next ⟨[0, 42], 0, 0⟩ = some (42, ⟨[], 2 ^ 64 - 1, 42⟩) ∧
        ∀ (reps prev : Nat) (bs' : List Nat), reps ≠ 0 → reps < 2 ^ 64 →
          RLER.next ⟨bs', reps, prev⟩ = some (prev, ⟨bs', reps - 1, prev⟩)) :=
  ⟨by decide, by decide,
    claim_C10_zero_count_pair [0, 42] [42] [] 42 0 (by decide) (by decide)⟩

theorem pair_match_eta {α β γ : Type} (P : α × β) (f : α → β → γ) :
    (match P with | (a, b) => f a b) = f P.1 P.2 := by
  rcases P with ⟨a, b⟩
  rfl

theorem rleTputB_false {st : RLEW} {xs : List Nat}
    (h : (rleTputB st xs).1 = false) : (rleTputB st xs).2 = ⟨st.bw, 0, 0⟩ := by
  unfold rleTputB at h ⊢
  rcases hscan : rleScan st.prev st.reps xs [] with ⟨p, pr⟩
  rcases pr with ⟨r, out⟩
  dsimp only at h ⊢
  rcases htp : st.bw.tput (if out.length < 2 * xs.length then out ++ [r, p] else out)
    with _ | bw'
  · rfl
  · rw [hscan] at h
    dsimp only at h
    rw [htp] at h
    simp at h

theorem lastD_eq_getLast :
    ∀ (xs : List Nat) (hne : xs ≠ []) (d : Nat), lastD xs d = xs.getLast hne := by
  intro xs
  induction xs with
  | nil => intro hne; exact absurd rfl hne
  | cons v t ih =>
    intro _ d
    cases t with
    | nil => rfl
    | cons w t' =>
      rw [show lastD (v :: w :: t') d = lastD (w :: t') v by rfl, ih (by simp) v]
      exact (List.getLast_cons (by simp)).symm

theorem dtputB_eq (st : DRLEW) (xs : List Nat) :
    DRLEW.tputB st xs =
      ((rleTputB st.rle (deltasFrom st.prev xs)).1,
        ⟨(rleTputB st.rle (deltasFrom st.prev xs)).2, lastD xs st.prev⟩) := by
  unfold DRLEW.tputB
  dsimp only

/-- C5 counterexample: a failing transactional `tput` does **not** roll
back the delta writer's `prev_`: over a zero-capacity stream, a fresh
`DeltaRLEWriter` fed the single value 5 fails but ends with `prev_ = 5`
instead of its pre-call value 0. -/
theorem claim_C5_counterexample :
    (DRLEW.tputB (DRLEW.mk (RLEW.mk (BW.mk 0 []) 0 0) 0) [5]).1 = false ∧
      (DRLEW.tputB (DRLEW.mk (RLEW.mk (BW.mk 0 []) 0 0) 0) [5]).2.prev = 5 ∧
      (DRLEW.mk (RLEW.mk (BW.mk 0 []) 0 0) 0).prev = 0 := by
  constructor
  · decide
  · constructor <;> decide

/-- C5 (amended). When a transactional `tput` fails partway, the failure
is propagated as a `false` return and no bytes become observable (the byte
cursor is restored), but the transform state is **not** fully rolled back:
the delta writer's `prev_` advances to the last input value and the RLE
writer's pending run count and value are reset to zero (not restored). -/
theorem claim_C5_rollback_amended (st : DRLEW) (xs : List Nat) (hne : xs ≠ [])
    (hfail : (DRLEW.tputB st xs).1 = false) :
    (DRLEW.tputB st xs).2.rle.bw = st.rle.bw ∧
      (DRLEW.tputB st xs).2.prev = xs.getLast hne ∧
      (DRLEW.tputB st xs).2.rle.prev = 0 ∧
      (DRLEW.tputB st xs).2.rle.reps = 0 := by
  rw [dtputB_eq] at hfail ⊢
  have hrle := rleTputB_false hfail
  rw [hrle]
  exact ⟨rfl, lastD_eq_getLast xs hne st.prev, rfl, rfl⟩

/-- Witness for the amended C5 at the concrete failing input of the
counterexample. -/
theorem claim_C5_witness :
    (DRLEW.tputB (DRLEW.mk (RLEW.mk (BW.mk 0 []) 0 0) 0) [5]).1 = false ∧
      ((DRLEW.tputB (DRLEW.mk (RLEW.mk (BW.mk 0 []) 0 0) 0) [5]).2.rle.bw =
          (DRLEW.mk (RLEW.mk (BW.mk 0 []) 0 0) 0).rle.bw ∧
        (DRLEW.tputB (DRLEW.mk (RLEW.mk (BW.mk 0 []) 0 0) 0) [5]).2.prev =
          [5].getLast (by decide) ∧
        (DRLEW.tputB (DRLEW.mk (RLEW.mk (BW.mk 0 []) 0 0) 0) [5]).2.rle.prev = 0 ∧
        (DRLEW.tputB (DRLEW.mk (RLEW.mk (BW.mk 0 []) 0 0) 0) [5]).2.rle.reps = 0) :=
  ⟨by decide,
    claim_C5_rollback_amended (DRLEW.mk (RLEW.mk (BW.mk 0 []) 0 0) 0) [5]
      (by decide) (by decide)⟩

/-! ## Round-trip of the `DeltaRLEWriter`/`DeltaRLEReader` stack (claim C2) -/

/-- The flat value sequence of a list of `(reps, prev)` pairs, in the
order `RLEStreamWriter` writes them. -/
def flatPairs : List (Nat × Nat) → List Nat
  | [] => []
  | (r, p) :: t => r :: p :: flatPairs t

/-- The value sequence a list of RLE pairs denotes. -/
def expandPairs : List (Nat × Nat) → List Nat
  | [] => []
  | (r, p) :: t => List.replicate r p ++ expandPairs t

/-- Running wrapped prefix sums: what `DeltaStreamReader` reconstructs
from a delta sequence. -/
def sumsFrom (prev : Nat) : List Nat → List Nat
  | [] => []
  | d :: t => wadd64 prev d :: sumsFrom (wadd64 prev d) t

/-- `Δ` is the byte stream of the LEB128 encodings of `vs`, value by
value, each decodable in place. -/
inductive VarSeq : List Nat → List Nat → Prop
  | nil : VarSeq [] []
  | cons {b Δ : List Nat} {v : Nat} {vs : List Nat} :
      (∀ rest, b128next (b ++ rest) = some (v, rest)) →
      VarSeq Δ vs → VarSeq (b ++ Δ) (v :: vs)

/-- Successive `DeltaRLEWriter::tput` calls, stopping at the first failure
(the caller would see `false` and stop writing the block). -/
def writeChunks (st : DRLEW) : List (List Nat) → Option DRLEW
  | [] => some st
  | c :: cs =>
    match DRLEW.tputB st c with
    | (true, st') => writeChunks st' cs
    | (false, _) => none

theorem lastD_append (A B : List Nat) :
    ∀ d, lastD (A ++ B) d = lastD B (lastD A d) := by
  induction A with
  | nil => intro d; rfl
  | cons a A' ih => intro d; exact ih a

theorem deltasFrom_lt {prev : Nat} {xs : List Nat} :
    ∀ d ∈ deltasFrom prev xs, d < 2 ^ 64 := by
  induction xs generalizing prev with
  | nil => intro d hd; simp [deltasFrom] at hd
  | cons v t ih =>
    intro d hd
    simp only [deltasFrom, List.mem_cons] at hd
    rcases hd with h | h
    · rw [h, wsub64]
      exact Nat.mod_lt _ (by norm_num)
    · exact ih d h

theorem deltasFrom_length (prev : Nat) (xs : List Nat) :
    (deltasFrom prev xs).length = xs.length := by
  induction xs generalizing prev with
  | nil => rfl
  | cons v t ih => simp [deltasFrom, ih]

/-- `Delta` then `DeltaStreamReader`'s prefix sums are the identity on u64
values. -/
theorem sumsFrom_deltasFrom {xs : List Nat} {prev : Nat}
    (hxs : ∀ v ∈ xs, v < 2 ^ 64) (hprev : prev < 2 ^ 64) :
    sumsFrom prev (deltasFrom prev xs) = xs := by
  induction xs generalizing prev with
  | nil => rfl
  | cons v t ih =>
    have hv : v < 2 ^ 64 := hxs v (by simp)
    have hs : wadd64 prev (wsub64 v prev) = v := by
      rw [wadd64, wsub64]
      omega
    simp only [deltasFrom, sumsFrom, hs]
    rw [ih (fun x hx => hxs x (by simp [hx])) hv]

theorem sumsFrom_lastD (prev : Nat) (ds : List Nat) :
    lastD (sumsFrom prev ds) prev = wadd64 (lastD ds prev) 0 ∨ True := Or.inr trivial

theorem DRLER.readN_add {m n : Nat} :
    ∀ {st st1 st2 : DRLER} {vs1 vs2 : List Nat},
      DRLER.readN m st = some (vs1, st1) → DRLER.readN n st1 = some (vs2, st2) →
      DRLER.readN (m + n) st = some (vs1 ++ vs2, st2) := by
  induction m with
  | zero =>
    intro st st1 st2 vs1 vs2 h1 h2
    simp only [DRLER.readN, Option.some.injEq, Prod.mk.injEq] at h1
    rw [Nat.zero_add, ← h1.1]
    rw [← h1.2] at h2
    simpa using h2
  | succ m ih =>
    intro st st1 st2 vs1 vs2 h1 h2
    rw [show m + 1 + n = (m + n) + 1 by omega]
    rcases hnx : st.next with _ | ⟨v, st'⟩
    · simp only [DRLER.readN, hnx] at h1
      exact absurd h1 (by simp)
    · simp only [DRLER.readN, hnx] at h1
      rcases hrd : DRLER.readN m st' with _ | ⟨vs1', st1'⟩
      · simp only [hrd] at h1
        exact absurd h1 (by simp)
      · simp only [hrd, Option.some.injEq, Prod.mk.injEq] at h1
        obtain ⟨hv1, hst1⟩ := h1
        rw [← hst1] at h2
        have hcomb := ih hrd h2
        simp only [DRLER.readN, hnx, hcomb]
        rw [← hv1]
        simp

/-- Reading out a pending run: from reader state `(bs, k, p)` the next `k`
`DeltaRLEReader::next` calls return the prefix sums of `k` copies of `p`,
consume no bytes, and leave the run counter at zero. -/
theorem readN_run :
    ∀ (k : Nat), k < 2 ^ 64 → ∀ (p prev : Nat) (bs : List Nat),
      DRLER.readN k ⟨⟨bs, k, p⟩, prev⟩ =
        some (sumsFrom prev (List.replicate k p),
          ⟨⟨bs, 0, p⟩, lastD (sumsFrom prev (List.replicate k p)) prev⟩) := by
  intro k
  induction k with
  | zero => intro _ p prev bs; rfl
  | succ k ih =>
    intro hk p prev bs
    have hdec : u64dec (k + 1) = k := by rw [u64dec]; omega
    have hrle : RLER.next ⟨bs, k + 1, p⟩ = some (p, ⟨bs, k, p⟩) := by
      rw [RLER.next]
      simp only [if_neg (show ¬(k + 1 = 0) by omega), hdec]
    have hnx : DRLER.next ⟨⟨bs, k + 1, p⟩, prev⟩ =
        some (wadd64 prev p, ⟨⟨bs, k, p⟩, wadd64 prev p⟩) := by
      rw [DRLER.next, hrle]
    simp only [DRLER.readN, hnx]
    rw [ih (by omega) p (wadd64 prev p) bs]
    rfl

theorem VarSeq_nil_inv {Δ : List Nat} (h : VarSeq Δ []) : Δ = [] := by
  cases h
  rfl

theorem VarSeq_cons_inv {Δ : List Nat} {v : Nat} {vs : List Nat}
    (h : VarSeq Δ (v :: vs)) :
    ∃ b Δ', Δ = b ++ Δ' ∧ (∀ rest, b128next (b ++ rest) = some (v, rest)) ∧
      VarSeq Δ' vs := by
  cases h with
  | cons hb ht => exact ⟨_, _, rfl, hb, ht⟩

theorem BW.put_spec {w w' : BW} {v : Nat} (hv : v < 2 ^ 64)
    (h : BW.put w v = some w') :
    w'.cap = w.cap ∧ ∃ b, w'.out = w.out ++ b ∧
      ∀ rest, b128next (b ++ rest) = some (v, rest) := by
  rw [BW.put] at h
  rcases he : encLoop w.spaceLeft v with _ | b
  · rw [he] at h; exact absurd h (by simp)
  · rw [he] at h
    simp only [Option.some.injEq] at h
    rw [← h]
    exact ⟨rfl, b, rfl, fun rest => b128next_enc hv he rest⟩

/-- A successful `Base128StreamWriter::tput` appends exactly the
concatenated LEB128 encodings of its arguments. -/
theorem BW.tput_spec :
    ∀ (vs : List Nat) (w w' : BW), BW.tput w vs = some w' →
      (∀ v ∈ vs, v < 2 ^ 64) →
      w'.cap = w.cap ∧ ∃ Δ, w'.out = w.out ++ Δ ∧ VarSeq Δ vs := by
  intro vs
  induction vs with
  | nil =>
    intro w w' h _
    simp only [BW.tput, Option.some.injEq] at h
    rw [← h]
    exact ⟨rfl, [], by simp, VarSeq.nil⟩
  | cons v t ih =>
    intro w w' h hv
    simp only [BW.tput] at h
    rcases hp : w.put v with _ | w1
    · rw [hp] at h; exact absurd h (by simp)
    · rw [hp] at h
      obtain ⟨hcap1, b, hout1, hdec⟩ := BW.put_spec (hv v (by simp)) hp
      obtain ⟨hcap2, Δ, hout2, hseq⟩ := ih w1 w' h (fun x hx => hv x (by simp [hx]))
      refine ⟨by rw [hcap2, hcap1], b ++ Δ, ?_, VarSeq.cons hdec hseq⟩
      rw [hout2, hout1, List.append_assoc]

theorem sumsFrom_append (A B : List Nat) :
    ∀ prev, sumsFrom prev (A ++ B) =
      sumsFrom prev A ++ sumsFrom (lastD (sumsFrom prev A) prev) B := by
  induction A with
  | nil => intro prev; rfl
  | cons d A' ih =>
    intro prev
    show wadd64 prev d :: sumsFrom (wadd64 prev d) (A' ++ B) = _
    rw [ih (wadd64 prev d)]
    rfl

/-- Reading out a full RLE pair list: `expandPairs ps` values come back as
prefix sums, consuming exactly the pair bytes, leaving the run counter at
zero. -/
theorem readN_pairs :
    ∀ (ps : List (Nat × Nat)) (Δ : List Nat), VarSeq Δ (flatPairs ps) →
      (∀ pr ∈ ps, 1 ≤ pr.1 ∧ pr.1 < 2 ^ 64) →
      ∀ (rest : List Nat) (p0 prev : Nat),
        ∃ q, DRLER.readN (expandPairs ps).length ⟨⟨Δ ++ rest, 0, p0⟩, prev⟩ =
          some (sumsFrom prev (expandPairs ps),
            ⟨⟨rest, 0, q⟩, lastD (sumsFrom prev (expandPairs ps)) prev⟩) := by
  intro ps
  induction ps with
  | nil =>
    intro Δ hseq _ rest p0 prev
    rw [VarSeq_nil_inv hseq]
    exact ⟨p0, rfl⟩
  | cons pr t ih =>
    rcases pr with ⟨r, p⟩
    intro Δ hseq hbnd rest p0 prev
    obtain ⟨br, Δ1, hΔ, hbr, hseq1⟩ := VarSeq_cons_inv hseq
    obtain ⟨bp, Δt, hΔ1, hbp, hseqt⟩ := VarSeq_cons_inv hseq1
    obtain ⟨hr1, hr64⟩ := hbnd (r, p) (by simp)
    obtain ⟨k, hk⟩ : ∃ k, r = k + 1 := ⟨r - 1, by omega⟩
    subst hk
    have hdec : u64dec (k + 1) = k := by rw [u64dec]; omega
    have hrle : RLER.next ⟨br ++ (bp ++ (Δt ++ rest)), 0, p0⟩ =
        some (p, ⟨Δt ++ rest, k, p⟩) := by
      rw [RLER.next]
      simp only [if_pos rfl, hbr (bp ++ (Δt ++ rest)), hbp (Δt ++ rest), hdec]
      simp
    have hnx : DRLER.next ⟨⟨br ++ (bp ++ (Δt ++ rest)), 0, p0⟩, prev⟩ =
        some (wadd64 prev p, ⟨⟨Δt ++ rest, k, p⟩, wadd64 prev p⟩) := by
      rw [DRLER.next, hrle]
    have hrun := readN_run k (by omega) p (wadd64 prev p) (Δt ++ rest)
    have hfirst : DRLER.readN (k + 1) ⟨⟨br ++ (bp ++ (Δt ++ rest)), 0, p0⟩, prev⟩ =
        some (sumsFrom prev (List.replicate (k + 1) p),
          ⟨⟨Δt ++ rest, 0, p⟩,
            lastD (sumsFrom prev (List.replicate (k + 1) p)) prev⟩) := by
      simp only [DRLER.readN, hnx, hrun]
      rfl
    set prev1 := lastD (sumsFrom prev (List.replicate (k + 1) p)) prev with hprev1
    obtain ⟨q, hq⟩ := ih Δt hseqt (fun x hx => hbnd x (by simp [hx])) rest p prev1
    refine ⟨q, ?_⟩
    have hcomb := DRLER.readN_add hfirst hq
    rw [hΔ, hΔ1]
    have hlen : (expandPairs ((k + 1, p) :: t)).length =
        (k + 1) + (expandPairs t).length := by
      simp [expandPairs]
    rw [hlen]
    have hassoc : (br ++ (bp ++ Δt)) ++ rest = br ++ (bp ++ (Δt ++ rest)) := by
      simp [List.append_assoc]
    rw [hassoc, hcomb]
    have hsum : sumsFrom prev (expandPairs ((k + 1, p) :: t)) =
        sumsFrom prev (List.replicate (k + 1) p) ++ sumsFrom prev1 (expandPairs t) := by
      show sumsFrom prev (List.replicate (k + 1) p ++ expandPairs t) = _
      rw [sumsFrom_append]
    rw [hsum, lastD_append]

theorem flatPairs_concat :
    ∀ (A : List (Nat × Nat)) (r p : Nat),
      flatPairs (A ++ [(r, p)]) = flatPairs A ++ [r, p] := by
  intro A r p
  induction A with
  | nil => rfl
  | cons pr t ih =>
    rcases pr with ⟨a, b⟩
    simp only [List.cons_append, flatPairs, List.append_eq, ih]

theorem expandPairs_concat :
    ∀ (A : List (Nat × Nat)) (r p : Nat),
      expandPairs (A ++ [(r, p)]) = expandPairs A ++ List.replicate r p := by
  intro A r p
  induction A with
  | nil => simp [expandPairs]
  | cons pr t ih =>
    rcases pr with ⟨a, b⟩
    simp only [List.cons_append, expandPairs, List.append_eq, ih, List.append_assoc]

theorem expandPairs_length_ge :
    ∀ (ps : List (Nat × Nat)), (∀ pr ∈ ps, 1 ≤ pr.1) →
      ps.length ≤ (expandPairs ps).length := by
  intro ps
  induction ps with
  | nil => intro _; simp [expandPairs]
  | cons pr t ih =>
    rcases pr with ⟨r, p⟩
    intro h
    have hr : 1 ≤ r := h (r, p) (by simp)
    have := ih (fun x hx => h x (by simp [hx]))
    simp only [expandPairs, List.length_cons, List.length_append,
      List.length_replicate]
    omega

theorem flatPairs_length :
    ∀ (ps : List (Nat × Nat)), (flatPairs ps).length = 2 * ps.length := by
  intro ps
  induction ps with
  | nil => rfl
  | cons pr t ih =>
    rcases pr with ⟨r, p⟩
    simp only [flatPairs, List.length_cons, ih]
    omega

theorem flatPairs_mem :
    ∀ (ps : List (Nat × Nat)) (v : Nat), v ∈ flatPairs ps →
      ∃ pr, pr ∈ ps ∧ (v = pr.1 ∨ v = pr.2) := by
  intro ps
  induction ps with
  | nil => intro v hv; simp [flatPairs] at hv
  | cons pr t ih =>
    rcases pr with ⟨r, p⟩
    intro v hv
    simp only [flatPairs, List.mem_cons] at hv
    rcases hv with h | h | h
    · exact ⟨(r, p), by simp, Or.inl h⟩
    · exact ⟨(r, p), by simp, Or.inr h⟩
    · obtain ⟨pr', hm, hor⟩ := ih v h
      exact ⟨pr', by simp [hm], hor⟩

/-- Specification of the `RLEStreamWriter::tput` scan loop: the flushed
pairs followed by the final pending run re-expand to the pending run plus
the input. -/
theorem rleScan_spec :
    ∀ (xs : List Nat) (prev reps : Nat) (out : List Nat),
      (∀ v ∈ xs, v < 2 ^ 64) → prev < 2 ^ 64 →
      ∃ (ps : List (Nat × Nat)) (p' r' : Nat),
        rleScan prev reps xs out = (p', r', out ++ flatPairs ps) ∧
        expandPairs ps ++ List.replicate r' p' = List.replicate reps prev ++ xs ∧
        (∀ pr ∈ ps, 1 ≤ pr.1 ∧ pr.1 ≤ reps + xs.length ∧ pr.2 < 2 ^ 64) ∧
        r' ≤ reps + xs.length ∧ p' < 2 ^ 64 ∧
        (r' = 0 → reps = 0 ∧ xs = []) := by
  intro xs
  induction xs with
  | nil =>
    intro prev reps out _ hprev
    exact ⟨[], prev, reps, by simp [rleScan, flatPairs], by simp [expandPairs],
      by simp, by simp, hprev, fun h => ⟨h, rfl⟩⟩
  | cons v t ih =>
    intro prev reps out hlt hprev
    have hv : v < 2 ^ 64 := hlt v (by simp)
    have hlt' : ∀ x ∈ t, x < 2 ^ 64 := fun x hx => hlt x (by simp [hx])
    by_cases hvp : v = prev
    · subst hvp
      obtain ⟨ps, p', r', hscan, hexp, hcnt, hrle, hp64, hr0⟩ :=
        ih v (reps + 1) out hlt' hv
      refine ⟨ps, p', r', ?_, ?_, ?_, by simp only [List.length_cons]; omega, hp64, ?_⟩
      · rw [rleScan, if_neg (by omega)]
        exact hscan
      · rw [hexp, List.replicate_succ', List.append_assoc]
        simp
      · intro pr hpr
        have := hcnt pr hpr
        simp only [List.length_cons]
        omega
      · intro h
        exact absurd (hr0 h).1 (by omega)
    · by_cases hreps : reps = 0
      · subst hreps
        obtain ⟨ps, p', r', hscan, hexp, hcnt, hrle, hp64, hr0⟩ :=
          ih v 1 out hlt' hv
        refine ⟨ps, p', r', ?_, ?_, ?_, by simp only [List.length_cons]; omega, hp64, ?_⟩
        · rw [rleScan, if_pos (by omega), if_neg (by omega)]
          exact hscan
        · rw [hexp]
          simp
        · intro pr hpr
          have := hcnt pr hpr
          simp only [List.length_cons]
          omega
        · intro h
          exact absurd (hr0 h).1 (by omega)
      · obtain ⟨ps', p', r', hscan, hexp, hcnt, hrle, hp64, hr0⟩ :=
          ih v 1 (out ++ [reps, prev]) hlt' hv
        refine ⟨(reps, prev) :: ps', p', r', ?_, ?_, ?_, by simp only [List.length_cons]; omega, hp64, ?_⟩
        · rw [rleScan, if_pos (by omega), if_pos (by omega)]
          rw [hscan, flatPairs, List.append_assoc]
          rfl
        · rw [show expandPairs ((reps, prev) :: ps') =
              List.replicate reps prev ++ expandPairs ps' from rfl,
            List.append_assoc, hexp]
          simp
        · intro pr hpr
          simp only [List.mem_cons] at hpr
          rcases hpr with h | h
          · rw [h]
            refine ⟨by omega, by simp only [List.length_cons]; omega, hprev⟩
          · have := hcnt pr h
            simp only [List.length_cons]
            omega
        · intro h
          exact absurd (hr0 h).1 (by omega)

theorem rleTputB_eval {st : RLEW} {xs : List Nat} {p' r' : Nat} {flat : List Nat}
    (hscan : rleScan st.prev st.reps xs [] = (p', r', flat)) :
    rleTputB st xs =
      match BW.tput st.bw
          (if flat.length < 2 * xs.length then flat ++ [r', p'] else flat) with
      | none => (false, ⟨st.bw, 0, 0⟩)
      | some bw' => (true, ⟨bw', 0, 0⟩) := by
  unfold rleTputB
  rw [hscan]

/-- A successful chunk flush through `DeltaRLEWriter::tput` from clean RLE
state: the emitted bytes decode (via `DeltaRLEReader`) back to exactly the
chunk, leaving the reader ready at the next byte. -/
theorem dtput_chunk {st st' : DRLEW} {xs : List Nat}
    (hrp : st.rle.prev = 0) (hrr : st.rle.reps = 0)
    (hprev : st.prev < 2 ^ 64)
    (hxs : ∀ v ∈ xs, v < 2 ^ 64) (hxlen : xs.length < 2 ^ 64)
    (hok : DRLEW.tputB st xs = (true, st')) :
    st'.rle.prev = 0 ∧ st'.rle.reps = 0 ∧ st'.rle.bw.cap = st.rle.bw.cap ∧
      st'.prev = lastD xs st.prev ∧ st'.prev < 2 ^ 64 ∧
      ∃ Δ, st'.rle.bw.out = st.rle.bw.out ++ Δ ∧
        ∀ (rest : List Nat) (p0 : Nat), ∃ q,
          DRLER.readN xs.length ⟨⟨Δ ++ rest, 0, p0⟩, st.prev⟩ =
            some (xs, ⟨⟨rest, 0, q⟩, st'.prev⟩) := by
  rw [dtputB_eq] at hok
  have hok1 : (rleTputB st.rle (deltasFrom st.prev xs)).1 = true :=
    congrArg Prod.fst hok
  have hok2 : (⟨(rleTputB st.rle (deltasFrom st.prev xs)).2,
      lastD xs st.prev⟩ : DRLEW) = st' := congrArg Prod.snd hok
  obtain ⟨ps, p', r', hscan, hexp, hcnt, hrle, hp64, hr0⟩ :=
    rleScan_spec (deltasFrom st.prev xs) 0 0 [] deltasFrom_lt (by norm_num)
  simp only [List.replicate_zero, List.nil_append] at hexp
  have hscan' : rleScan st.rle.prev st.rle.reps (deltasFrom st.prev xs) [] =
      (p', r', flatPairs ps) := by
    rw [hrp, hrr, hscan]
    simp
  have heval := rleTputB_eval hscan'
  have hdlen : (deltasFrom st.prev xs).length = xs.length :=
    deltasFrom_length st.prev xs
  have hlastD : lastD xs st.prev < 2 ^ 64 := by
    cases xs with
    | nil => exact hprev
    | cons x0 xt =>
      rw [lastD_eq_getLast (x0 :: xt) (by simp) st.prev]
      exact hxs _ (List.getLast_mem (by simp))
  cases xs with
  | nil =>
    have hexp0 : expandPairs ps = [] ∧ r' = 0 := by
      have h0 : (expandPairs ps).length + r' = 0 := by
        have := congrArg List.length hexp
        simpa [List.length_append, List.length_replicate, deltasFrom] using this
      exact ⟨List.eq_nil_of_length_eq_zero (by omega), by omega⟩
    have hps : ps = [] := by
      have h1 := expandPairs_length_ge ps (fun pr hpr => (hcnt pr hpr).1)
      rw [hexp0.1] at h1
      exact List.eq_nil_of_length_eq_zero (by simpa using h1)
    subst hps
    have houtv : (if (flatPairs ([] : List (Nat × Nat))).length <
        2 * (deltasFrom st.prev ([] : List Nat)).length
        then flatPairs ([] : List (Nat × Nat)) ++ [r', p']
        else flatPairs ([] : List (Nat × Nat))) = [] := by
      simp [flatPairs, deltasFrom]
    rw [houtv] at heval
    have htp : BW.tput st.rle.bw [] = some st.rle.bw := rfl
    rw [htp] at heval
    dsimp only at heval
    rw [heval] at hok2
    dsimp only at hok2
    rw [← hok2]
    refine ⟨rfl, rfl, rfl, rfl, hlastD, [], by simp, ?_⟩
    intro rest p0
    exact ⟨p0, by simp [DRLER.readN, lastD]⟩
  | cons x0 xt =>
    have hlen1 : 1 ≤ (deltasFrom st.prev (x0 :: xt)).length := by
      rw [hdlen]
      simp
    have hr1 : 1 ≤ r' := by
      by_contra hr
      have := hr0 (by omega)
      rw [this.2] at hlen1
      simp at hlen1
    have hlensum : (expandPairs ps).length + r' =
        (deltasFrom st.prev (x0 :: xt)).length := by
      have := congrArg List.length hexp
      simpa [List.length_append, List.length_replicate] using this
    have hpslen := expandPairs_length_ge ps (fun pr hpr => (hcnt pr hpr).1)
    have hguard : (flatPairs ps).length <
        2 * (deltasFrom st.prev (x0 :: xt)).length := by
      rw [flatPairs_length]
      omega
    rw [if_pos hguard] at heval
    rw [← flatPairs_concat ps r' p'] at heval
    set PS := ps ++ [(r', p')] with hPS
    have hbnd : ∀ pr ∈ PS, 1 ≤ pr.1 ∧ pr.1 < 2 ^ 64 ∧ pr.2 < 2 ^ 64 := by
      intro pr hpr
      rw [hPS] at hpr
      rcases List.mem_append.mp hpr with h | h
      · obtain ⟨h1, h2, h3⟩ := hcnt pr h
        refine ⟨h1, by omega, h3⟩
      · simp only [List.mem_singleton] at h
        rw [h]
        refine ⟨hr1, by simp only; omega, hp64⟩
    have hflat64 : ∀ v ∈ flatPairs PS, v < 2 ^ 64 := by
      intro v hv
      obtain ⟨pr, hm, hor⟩ := flatPairs_mem PS v hv
      obtain ⟨h1, h2, h3⟩ := hbnd pr hm
      rcases hor with h | h <;> omega
    rcases htp : BW.tput st.rle.bw (flatPairs PS) with _ | bw'
    · rw [htp] at heval
      dsimp only at heval
      rw [heval] at hok1
      simp at hok1
    · rw [htp] at heval
      dsimp only at heval
      rw [heval] at hok2
      dsimp only at hok2
      obtain ⟨hcap, Δ, hout, hseq⟩ := BW.tput_spec (flatPairs PS) _ _ htp hflat64
      rw [← hok2]
      refine ⟨rfl, rfl, hcap, rfl, hlastD, Δ, hout, ?_⟩
      intro rest p0
      obtain ⟨q, hq⟩ :=
        readN_pairs PS Δ hseq (fun pr hpr => ⟨(hbnd pr hpr).1, (hbnd pr hpr).2.1⟩)
          rest p0 st.prev
      refine ⟨q, ?_⟩
      have hexpPS : expandPairs PS = deltasFrom st.prev (x0 :: xt) := by
        rw [hPS, expandPairs_concat, hexp]
      rw [hexpPS] at hq
      rw [sumsFrom_deltasFrom hxs hprev] at hq
      rw [hdlen] at hq
      exact hq

/-- Invariant round-trip over a whole sequence of `tput` chunk flushes. -/
theorem writeChunks_spec :
    ∀ (chunks : List (List Nat)) (st stF : DRLEW),
      st.rle.prev = 0 → st.rle.reps = 0 → st.prev < 2 ^ 64 →
      (∀ c ∈ chunks, ∀ v ∈ c, v < 2 ^ 64) →
      (∀ c ∈ chunks, c.length < 2 ^ 64) →
      writeChunks st chunks = some stF →
      ∃ Δ, stF.rle.bw.out = st.rle.bw.out ++ Δ ∧
        ∀ (rest : List Nat) (p0 : Nat), ∃ q,
          DRLER.readN chunks.join.length ⟨⟨Δ ++ rest, 0, p0⟩, st.prev⟩ =
            some (chunks.join, ⟨⟨rest, 0, q⟩, stF.prev⟩) := by
  intro chunks
  induction chunks with
  | nil =>
    intro st stF _ _ _ _ _ hw
    simp only [writeChunks, Option.some.injEq] at hw
    subst hw
    refine ⟨[], by simp, ?_⟩
    intro rest p0
    exact ⟨p0, by simp [DRLER.readN, List.join]⟩
  | cons c cs ih =>
    intro st stF hrp hrr hprev hv hl hw
    rcases htp : DRLEW.tputB st c with ⟨ok, st1⟩
    cases ok with
    | false =>
      rw [writeChunks, htp] at hw
      exact absurd hw (by simp)
    | true =>
      rw [writeChunks, htp] at hw
      obtain ⟨hrp1, hrr1, _, hprev1eq, hprev1, Δ1, hout1, hread1⟩ :=
        dtput_chunk hrp hrr hprev (hv c (by simp)) (hl c (by simp)) htp
      obtain ⟨Δ2, hout2, hread2⟩ :=
        ih st1 stF hrp1 hrr1 hprev1 (fun x hx => hv x (by simp [hx]))
          (fun x hx => hl x (by simp [hx])) hw
      refine ⟨Δ1 ++ Δ2, ?_, ?_⟩
      · rw [hout2, hout1, List.append_assoc]
      · intro rest p0
        obtain ⟨q1, hq1⟩ := hread1 (Δ2 ++ rest) p0
        obtain ⟨q2, hq2⟩ := hread2 rest q1
        refine ⟨q2, ?_⟩
        have hjoin : (c :: cs).join = c ++ cs.join := by simp
        have hjlen : (c :: cs).join.length = c.length + cs.join.length := by
          simp
        rw [hjlen, hjoin]
        have hassoc : (Δ1 ++ Δ2) ++ rest = Δ1 ++ (Δ2 ++ rest) :=
          List.append_assoc _ _ _
        rw [hassoc]
        exact DRLER.readN_add hq1 hq2

/-- C2. Timestamp-stack round-trip: any sequence of u64 timestamps written
through the `DeltaRLEWriter` stack (`u64 → Delta → RLE → VarInt`) by
successive `tput` calls over a sufficiently large buffer (i.e. every call
succeeded) is returned exactly, in order, by successive
`DeltaRLEReader::next` calls over the resulting bytes — for non-decreasing
and arbitrary orderings alike (no monotonicity is assumed; deltas wrap
mod `2^64` and the reader's additions undo them exactly). -/
theorem claim_C2_timestamp_roundtrip (chunks : List (List Nat)) (cap : Nat)
    (stF : DRLEW)
    (hv : ∀ c ∈ chunks, ∀ v ∈ c, v < 2 ^ 64)
    (hlen : ∀ c ∈ chunks, c.length < 1000)
    (hw : writeChunks (DRLEW.mk (RLEW.mk (BW.mk cap []) 0 0) 0) chunks = some stF) :
    ∃ q, DRLER.readN chunks.join.length ⟨⟨stF.rle.bw.out, 0, 0⟩, 0⟩ =
      some (chunks.join, ⟨⟨[], 0, q⟩, stF.prev⟩) := by
  obtain ⟨Δ, hout, hread⟩ :=
    writeChunks_spec chunks (DRLEW.mk (RLEW.mk (BW.mk cap []) 0 0) 0) stF rfl rfl
      (by norm_num) hv
      (fun c hc => lt_trans (hlen c hc) (by norm_num)) hw
  obtain ⟨q, hq⟩ := hread [] 0
  refine ⟨q, ?_⟩
  rw [List.append_nil] at hq
  simp only [List.nil_append] at hout
  rw [hout]
  exact hq

/-- Concrete chunk sequence for the C2 witness; the second chunk is *not*
non-decreasing (5 after 1000), exercising the wrap-around delta. -/
def c2wChunks : List (List Nat) := [[1000, 1000, 1000], [1000, 5]]

/-- The writer state after the two `tput` calls of `c2wChunks` (the wrapped
delta `5 - 1000` encodes as a ten-byte VarInt). -/
def c2wFinal : DRLEW :=
  DRLEW.mk
    (RLEW.mk
      (BW.mk 64
        [1, 232, 7, 2, 0, 1, 0, 1, 157, 248, 255, 255, 255, 255, 255, 255, 255, 1])
      0 0)
    5

/-- Witness for C2 on `c2wChunks` over a 64-byte buffer. -/
theorem claim_C2_witness :
    (∀ c ∈ c2wChunks, ∀ v ∈ c, v < 2 ^ 64) ∧
      (∀ c ∈ c2wChunks, c.length < 1000) ∧
      writeChunks (DRLEW.mk (RLEW.mk (BW.mk 64 []) 0 0) 0) c2wChunks =
        some c2wFinal ∧
      ∃ q, DRLER.readN c2wChunks.join.length ⟨⟨c2wFinal.rle.bw.out, 0, 0⟩, 0⟩ =
        some (c2wChunks.join, ⟨⟨[], 0, q⟩, c2wFinal.prev⟩) :=
  ⟨by decide, by decide, by decide,
    claim_C2_timestamp_roundtrip c2wChunks 64 c2wFinal (by decide) (by decide)
      (by decide)⟩

/-- C7 counterexample: flushing sixteen timestamps equal to 1000 through
the fresh `DeltaRLEWriter` does **not** produce the single RLE pair
`(15, 1000)` (whose byte stream would be `[0x0F, 0xE8, 0x07]`). -/
theorem claim_C7_counterexample :
    (DRLEW.tputB (DRLEW.mk (RLEW.mk (BW.mk 100 []) 0 0) 0)
        (List.replicate 16 1000)).2.rle.bw.out ≠ [15, 232, 7] := by
  decide

/-- C7 (amended). Flushing the sixteen timestamps all equal to 1000
through the delta+RLE timestamp stack with initial `prev = 0` produces
exactly **two** RLE pairs, `(1, 1000)` then `(15, 0)`: the initial delta
of 1000 forms its own run of length 1, and the fifteen zero deltas
collapse into `(15, 0)`.  The byte stream is
`varint(1) ++ varint(1000) ++ varint(15) ++ varint(0) =
[0x01, 0xE8, 0x07, 0x0F, 0x00]`. -/
theorem claim_C7_constant_series_pairs :
    DRLEW.tputB (DRLEW.mk (RLEW.mk (BW.mk 100 []) 0 0) 0) (List.replicate 16 1000) =
      (true, DRLEW.mk (RLEW.mk (BW.mk 100 [1, 232, 7, 15, 0]) 0 0) 1000) := by
  decide


/-! ## FCM float codec (claim C1)

`FcmPredictor` / `FcmStreamWriter` / `FcmStreamReader` are declared in
`compression.h` (506-563) but their bodies live in `compression.cpp`,
which is not part of the sources; the definitions below are modelled from
the specification (§4.3).  Doubles are handled through their IEEE-754
bit patterns (`Nat` below `2^64`): the codec is bit-transparent, so the
round-trip property on patterns is exactly bit-exactness on doubles. -/

/-- Modelled from the spec (§4.3, missing `compression.cpp`): the FCM
predictor table size — "a power of two chosen at construction (commonly
128-512 entries)"; the model fixes 128, used identically by writer and
reader. -/
def FCM_TABLE_SIZE : Nat := 128

/-- Modelled from the spec (§4.3): `FcmPredictor` — "fixed-size table of
64-bit entries indexed by a rolling hash of the most recent updates",
reset to zero for each block. -/
structure Pred where
  table : List Nat
  hash : Nat
  deriving Repr, DecidableEq

def Pred.init : Pred := ⟨List.replicate FCM_TABLE_SIZE 0, 0⟩

/-- Modelled from the spec (§4.3): `predict_next()` returns
`table[last_hash]`. -/
def Pred.predict (p : Pred) : Nat := p.table.getD p.hash 0

/-- Modelled from the spec (§4.3): `update(v)` writes `v` into
`table[last_hash]`, then `last_hash = ((last_hash << 6) XOR (v >> 48)) AND
mask` with `mask = size - 1 = 127`. -/
def Pred.update (p : Pred) (v : Nat) : Pred :=
  ⟨p.table.set p.hash v, ((p.hash <<< 6) ^^^ (v >>> 48)) &&& 127⟩

def PredWF (p : Pred) : Prop := ∀ x ∈ p.table, x < 2 ^ 64

theorem Pred.predict_lt {p : Pred} (h : PredWF p) : p.predict < 2 ^ 64 := by
  rw [Pred.predict]
  rcases hg : p.table[p.hash]? with _ | v
  · rw [List.getD_eq_getElem?_getD, hg]
    norm_num
  · rw [List.getD_eq_getElem?_getD, hg]
    exact h v (List.getElem?_mem hg)

theorem Pred.update_wf {p : Pred} {v : Nat} (h : PredWF p) (hv : v < 2 ^ 64) :
    PredWF (p.update v) := by
  intro x hx
  rcases List.mem_or_eq_of_mem_set hx with h1 | h1
  · exact h x h1
  · omega

theorem Pred.init_wf : PredWF Pred.init := by
  intro x hx
  rw [Pred.init, FCM_TABLE_SIZE] at hx
  simp only [List.mem_replicate] at hx
  omega

/-- Modelled from the spec (§4.3): the count of leading zero *bytes*
(0..8) of the xor of prediction and actual. -/
def lzBytes (x : Nat) : Nat :=
  if 2 ^ 56 ≤ x then 0
  else if 2 ^ 48 ≤ x then 1
  else if 2 ^ 40 ≤ x then 2
  else if 2 ^ 32 ≤ x then 3
  else if 2 ^ 24 ≤ x then 4
  else if 2 ^ 16 ≤ x then 5
  else if 2 ^ 8 ≤ x then 6
  else if 1 ≤ x then 7
  else 8

theorem lzBytes_le (x : Nat) : lzBytes x ≤ 8 := by
  rw [lzBytes]
  repeat' split
  all_goals omega

theorem lzBytes_bound {x : Nat} (h : x < 2 ^ 64) :
    x < 2 ^ (8 * (8 - lzBytes x)) := by
  rw [lzBytes]
  repeat' split
  all_goals (first | omega | (norm_num; omega) | norm_num)

/-- Modelled from the spec (§4.3): the `8 - lz` significant bytes of the
xor, little-endian (its low-order bytes). -/
def writeBytesLE : Nat → Nat → List Nat
  | 0, _ => []
  | n + 1, x => (x &&& 255) :: writeBytesLE n (x >>> 8)

/-- Modelled from the spec (§4.3/§4.5): the reader decodes `8 - flag`
bytes back into the xor value; running past the end of the buffer is the
Corrupt path (`none`). -/
def readBytesLE : Nat → List Nat → Option (Nat × List Nat)
  | 0, bs => some (0, bs)
  | _ + 1, [] => none
  | n + 1, b :: bs =>
    match readBytesLE n bs with
    | none => none
    | some (v, rest) => some (b + (v <<< 8), rest)

theorem readBytesLE_write :
    ∀ (n x : Nat), x < 2 ^ (8 * n) →
      ∀ rest, readBytesLE n (writeBytesLE n x ++ rest) = some (x, rest) := by
  intro n
  induction n with
  | zero =>
    intro x hx rest
    norm_num at hx
    subst hx
    rfl
  | succ n ih =>
    intro x hx rest
    have hd : x >>> 8 = x / 256 := by
      rw [Nat.shiftRight_eq_div_pow]
    have hx' : x / 256 < 2 ^ (8 * n) := by
      have he : (2 : Nat) ^ (8 * (n + 1)) = 2 ^ (8 * n) * 256 := by
        rw [show 8 * (n + 1) = 8 * n + 8 by omega, pow_add]
        norm_num
      rw [Nat.div_lt_iff_lt_mul (by norm_num)]
      omega
    simp only [writeBytesLE, List.cons_append, List.append_eq, readBytesLE, hd]
    rw [ih (x / 256) hx' rest]
    simp only [Option.some.injEq, Prod.mk.injEq]
    refine ⟨?_, trivial⟩
    rw [and_255_eq_mod, Nat.shiftLeft_eq]
    norm_num
    omega

/-- Modelled from the spec (§4.3): the `FcmStreamWriter` pair pipeline.
For each value (a double's bit pattern): `xor = bits XOR predict_next()`,
predictor updated with the actual bits, `flag = lz` (leading-zero-byte
count), `8 - lz` significant bytes.  Values are emitted in pairs: the
byte `(flag_first << 4) | flag_second` precedes the two significant-byte
runs; a solitary trailing value (never the case for 16-value chunks) puts
its flag in the high nibble with the low nibble zeroed.  Returns the
emitted bytes and the final predictor. -/
def fcmPairBytes : Pred → List Nat → List Nat × Pred
  | pred, [] => ([], pred)
  | pred, [v] =>
    let p1 := pred.predict
    let pred1 := pred.update v
    let d1 := v ^^^ p1
    let f1 := lzBytes d1
    (((f1 <<< 4) ||| 0) :: writeBytesLE (8 - f1) d1, pred1)
  | pred, v1 :: v2 :: rest =>
    let p1 := pred.predict
    let pred1 := pred.update v1
    let d1 := v1 ^^^ p1
    let p2 := pred1.predict
    let pred2 := pred1.update v2
    let d2 := v2 ^^^ p2
    let f1 := lzBytes d1
    let f2 := lzBytes d2
    let (tailBytes, pred') := fcmPairBytes pred2 rest
    (((f1 <<< 4) ||| f2) ::
        (writeBytesLE (8 - f1) d1 ++ writeBytesLE (8 - f2) d2) ++ tailBytes,
      pred')

/-- Modelled from the spec (§4.3/§4.5): `FcmStreamReader`, reading `k`
pairs: the flag byte, then `8 - hi-nibble` bytes for the first value and
`8 - lo-nibble` bytes for the second; each value is
`xor XOR predict_next()`, and the predictor is updated with it. -/
def fcmReadPairs : Pred → Nat → List Nat → Option (List Nat × Pred × List Nat)
  | pred, 0, bs => some ([], pred, bs)
  | _, _ + 1, [] => none
  | pred, k + 1, fb :: bs =>
    let f1 := fb >>> 4
    let f2 := fb &&& 15
    match readBytesLE (8 - f1) bs with
    | none => none
    | some (d1, bs1) =>
      let v1 := d1 ^^^ pred.predict
      let pred1 := pred.update v1
      match readBytesLE (8 - f2) bs1 with
      | none => none
      | some (d2, bs2) =>
        let v2 := d2 ^^^ pred1.predict
        let pred2 := pred1.update v2
        match fcmReadPairs pred2 k bs2 with
        | none => none
        | some (vs, predF, rest) => some (v1 :: v2 :: vs, predF, rest)

theorem xor_cancel_right {a b : Nat} : a ^^^ b ^^^ b = a := by
  rw [Nat.xor_assoc, Nat.xor_self, Nat.xor_zero]

/-- FCM round-trip on whole pairs: the reader run with the same predictor
state recovers the written values bit-exactly and ends in the writer's
final predictor state. -/
theorem fcmReadPairs_roundtrip :
    ∀ (k : Nat) (vals : List Nat) (pred : Pred), vals.length = 2 * k →
      (∀ v ∈ vals, v < 2 ^ 64) → PredWF pred →
      ∀ rest, fcmReadPairs pred k ((fcmPairBytes pred vals).1 ++ rest) =
        some (vals, (fcmPairBytes pred vals).2, rest) := by
  intro k
  induction k with
  | zero =>
    intro vals pred hlen _ _ rest
    have : vals = [] := List.eq_nil_of_length_eq_zero (by omega)
    subst this
    rfl
  | succ k ih =>
    intro vals pred hlen hv hwf rest
    rcases vals with _ | ⟨v1, vals1⟩
    · simp at hlen
    rcases vals1 with _ | ⟨v2, vrest⟩
    · simp at hlen
      omega
    have hv1 : v1 < 2 ^ 64 := hv v1 (by simp)
    have hv2 : v2 < 2 ^ 64 := hv v2 (by simp)
    have hp1 : pred.predict < 2 ^ 64 := Pred.predict_lt hwf
    have hwf1 : PredWF (pred.update v1) := Pred.update_wf hwf hv1
    have hp2 : (pred.update v1).predict < 2 ^ 64 := Pred.predict_lt hwf1
    have hwf2 : PredWF ((pred.update v1).update v2) := Pred.update_wf hwf1 hv2
    have hd1 : v1 ^^^ pred.predict < 2 ^ 64 := Nat.xor_lt_two_pow hv1 hp1
    have hd2 : v2 ^^^ (pred.update v1).predict < 2 ^ 64 :=
      Nat.xor_lt_two_pow hv2 hp2
    have hf1 : lzBytes (v1 ^^^ pred.predict) ≤ 8 := lzBytes_le _
    have hf2 : lzBytes (v2 ^^^ (pred.update v1).predict) ≤ 8 := lzBytes_le _
    set d1 := v1 ^^^ pred.predict with hd1def
    set d2 := v2 ^^^ (pred.update v1).predict with hd2def
    set f1 := lzBytes d1 with hf1def
    set f2 := lzBytes d2 with hf2def
    have hfb : (f1 <<< 4) ||| f2 = f1 * 16 + f2 := shiftLeft_lor_nibble (by omega)
    have hfbhi : (f1 * 16 + f2) >>> 4 = f1 := by
      rw [Nat.shiftRight_eq_div_pow]
      norm_num
      omega
    have hfblo : (f1 * 16 + f2) &&& 15 = f2 := by
      rw [and_15_eq_mod]
      omega
    rcases hrec : fcmPairBytes ((pred.update v1).update v2) vrest with ⟨tailB, predF⟩
    have hwriter : fcmPairBytes pred (v1 :: v2 :: vrest) =
        (((f1 <<< 4) ||| f2) ::
          (writeBytesLE (8 - f1) d1 ++ writeBytesLE (8 - f2) d2) ++ tailB,
          predF) := by
      rw [fcmPairBytes]
      rw [hrec]
    rw [hwriter]
    dsimp only
    rw [hfb]
    simp only [fcmReadPairs]
    rw [hfbhi, hfblo]
    simp only [List.append_eq]
    have hb1 : d1 < 2 ^ (8 * (8 - f1)) := lzBytes_bound hd1
    have hb2 : d2 < 2 ^ (8 * (8 - f2)) := lzBytes_bound hd2
    rw [show ((writeBytesLE (8 - f1) d1 ++ writeBytesLE (8 - f2) d2) ++ tailB) ++ rest
        = writeBytesLE (8 - f1) d1 ++
          (writeBytesLE (8 - f2) d2 ++ (tailB ++ rest)) by
      simp [List.append_assoc]]
    rw [readBytesLE_write (8 - f1) d1 hb1]
    dsimp only
    rw [readBytesLE_write (8 - f2) d2 hb2]
    dsimp only
    rw [hd1def, xor_cancel_right]
    rw [hd2def, xor_cancel_right]
    have hlen' : vrest.length = 2 * k := by
      simp only [List.length_cons] at hlen
      omega
    have := ih vrest ((pred.update v1).update v2) hlen'
      (fun x hx => hv x (by simp [hx])) hwf2 rest
    rw [hrec] at this
    dsimp only at this
    rw [this]

/-! ## `DataBlockWriter` / `DataBlockReader` (claim C1)

The structs are declared in `compression.h` (660-726); their member
bodies live in the missing `compression.cpp`, so the behaviour below is
modelled from the specification (§3, §4.4, §4.5). -/

/-- Modelled from the spec (§4.4/§9): the conservative worst-case chunk
reservation used by `room_for_chunk` — "16 full 10-byte VarInts + 16×9
bytes for FCM + 8-byte per-pair flag overhead", i.e. the safe bound
`16*10 + 16*9 + 16 = 320` named in §9. -/
def CHUNK_RESERVE : Nat := 320

/-- `aku_Status` outcomes of `DataBlockWriter::put`. -/
inductive AkuStatus where
  | success
  | overflow
  deriving Repr, DecidableEq

/-- Modelled from the spec (§4.4): `DataBlockWriter` state — series id,
the shared payload byte stream (everything after the 14-byte header,
capacity `size - HEADER_SIZE`), the timestamp stack's delta `prev_` (the
RLE run state is clean between chunk `tput`s), the FCM predictor, the two
16-entry scratch arrays, and the completed-chunk count. -/
structure DBW where
  id : Nat
  bw : BW
  tsPrev : Nat
  pred : Pred
  sTs : List Nat
  sVal : List Nat
  nchunks : Nat
  deriving Repr, DecidableEq

/-- Modelled from the spec (§4.4): construction writes the header
(version 1, zero placeholders, id) and fails (`AKU_EBAD_ARG`) when the
block is smaller than `HEADER_SIZE` plus the minimum chunk cost. -/
def DBW.mk? (id size : Nat) : Option DBW :=
  if 14 + CHUNK_RESERVE ≤ size then
    some ⟨id, ⟨size - 14, []⟩, 0, Pred.init, [], [], 0⟩
  else none

/-- Modelled from the spec (§4.3): the FCM value-chunk flush through the
shared stream: transactional — all bytes of the 16-value chunk or
nothing. -/
def fcmTput (bw : BW) (pred : Pred) (vals : List Nat) : Option (BW × Pred) :=
  let (bytes, pred') := fcmPairBytes pred vals
  if bytes.length ≤ bw.spaceLeft then
    some (⟨bw.cap, bw.out ++ bytes⟩, pred')
  else none

/-- Modelled from the spec (§4.4): `DataBlockWriter::put` — buffer the
sample; at 16 samples attempt a transactional flush of the chunk
(timestamps through Delta+RLE, then the 16 values through FCM) guarded by
the conservative `room_for_chunk`; on space exhaustion return `OVERFLOW`
without consuming the triggering sample and leave the scratch intact. -/
def DBW.put (w : DBW) (ts v : Nat) : AkuStatus × DBW :=
  let sTs := w.sTs ++ [ts]
  let sVal := w.sVal ++ [v]
  if sTs.length = 16 then
    if CHUNK_RESERVE ≤ w.bw.spaceLeft then
      match DRLEW.tputB ⟨⟨w.bw, 0, 0⟩, w.tsPrev⟩ sTs with
      | (true, st') =>
        match fcmTput st'.rle.bw w.pred sVal with
        | some (bw', pred') =>
          (AkuStatus.success, ⟨w.id, bw', st'.prev, pred', [], [], w.nchunks + 1⟩)
        | none => (AkuStatus.overflow, w)
      | (false, _) => (AkuStatus.overflow, w)
    else (AkuStatus.overflow, w)
  else (AkuStatus.success, { w with sTs := sTs, sVal := sVal })

/-- Modelled from the spec (§4.4): `get_write_index()`. -/
def DBW.writeIndex (w : DBW) : Nat := w.nchunks * 16 + w.sTs.length

/-- Modelled from the spec (§3): the 14-byte little-endian header
`version (2) | nchunks (2) | ntail (2) | series id (8)`. -/
def mkHeader (version nchunks ntail id : Nat) : List Nat :=
  [version % 256, version / 256 % 256, nchunks % 256, nchunks / 256 % 256,
    ntail % 256, ntail / 256 % 256] ++ writeBytesLE 8 id

/-- Modelled from the spec (§4.4): `commit()` — patch the final `nchunks`
and `ntail` into their reserved header slots; the sealed block is the
header followed by the payload (the scratch tail is *not* persisted). -/
def DBW.commit (w : DBW) : List Nat :=
  mkHeader 1 w.nchunks w.sTs.length w.id ++ w.bw.out

/-- Modelled from the spec (§4.4): `read_tail_elements` — the current
scratch contents. -/
def DBW.readTail (w : DBW) : List Nat × List Nat := (w.sTs, w.sVal)

/-- Modelled from the spec (§4.5): `DataBlockReader` state. -/
structure DBR where
  bs : List Nat
  rleReps : Nat
  rlePrev : Nat
  tsPrev : Nat
  pred : Pred
  tsBuf : List Nat
  valBuf : List Nat
  readIndex : Nat
  nchunks : Nat
  ntail : Nat
  id : Nat
  version : Nat
  deriving Repr, DecidableEq

/-- Modelled from the spec (§4.5): reader construction — parse the
14-byte header (version validated to be 1, ntail rejected if `> 15`),
position the stream readers immediately after it; predictor reset to
zero. -/
def DBR.mk? (block : List Nat) : Option DBR :=
  match block with
  | b0 :: b1 :: b2 :: b3 :: b4 :: b5 :: rest =>
    match readBytesLE 8 rest with
    | none => none
    | some (id, payload) =>
      let version := b0 + 256 * b1
      let nchunks := b2 + 256 * b3
      let ntail := b4 + 256 * b5
      if version = 1 ∧ ntail ≤ 15 then
        some ⟨payload, 0, 0, 0, Pred.init, [], [], 0, nchunks, ntail, id, version⟩
      else none
  | _ => none

/-- Modelled from the spec (§4.5): `nelements()` — the authoritative
decodable count `nchunks * 16`. -/
def DBR.nelements (r : DBR) : Nat := 16 * r.nchunks

/-- Modelled from the spec (§4.5): `next()` — terminal after
`nchunks * 16` samples; at each 16-sample boundary refill the internal
buffers (16 timestamps through the Delta+RLE reader, then the 16 values
through the FCM reader), then serve from the buffers. -/
def DBR.next (r : DBR) : Option ((Nat × Nat) × DBR) :=
  if r.readIndex < 16 * r.nchunks then
    if r.readIndex % 16 = 0 then
      match DRLER.readN 16 ⟨⟨r.bs, r.rleReps, r.rlePrev⟩, r.tsPrev⟩ with
      | none => none
      | some (tss, st') =>
        match fcmReadPairs r.pred 8 st'.rle.bs with
        | none => none
        | some (vals, pred', bs') =>
          some ((tss.getD 0 0, vals.getD 0 0),
            ⟨bs', st'.rle.reps, st'.rle.prev, st'.prev, pred', tss, vals,
              r.readIndex + 1, r.nchunks, r.ntail, r.id, r.version⟩)
    else
      some ((r.tsBuf.getD (r.readIndex % 16) 0, r.valBuf.getD (r.readIndex % 16) 0),
        { r with readIndex := r.readIndex + 1 })
  else none

/-- Successive `DataBlockReader::next` calls. -/
def DBR.readN : Nat → DBR → Option (List (Nat × Nat) × DBR)
  | 0, r => some ([], r)
  | n + 1, r =>
    match r.next with
    | none => none
    | some (s, r') =>
      match DBR.readN n r' with
      | none => none
      | some (ss, r'') => some (s :: ss, r'')

/-- Feeding a sample stream to the writer, stopping at the first
non-success status. -/
def writeAll (w : DBW) : List (Nat × Nat) → Option DBW
  | [] => some w
  | (ts, v) :: t =>
    match DBW.put w ts v with
    | (AkuStatus.success, w') => writeAll w' t
    | (AkuStatus.overflow, _) => none

/-- The whole block pipeline: construct the writer, `put` every sample,
`commit`, construct a reader over the sealed bytes, stream all
`nchunks*16` samples back out; also returns the writer-side tail. -/
def blockRoundtrip (id B : Nat) (S : List (Nat × Nat)) :
    Option (List (Nat × Nat) × List Nat × List Nat) :=
  match DBW.mk? id B with
  | none => none
  | some w0 =>
    match writeAll w0 S with
    | none => none
    | some wF =>
      match DBR.mk? wF.commit with
      | none => none
      | some r =>
        match DBR.readN (16 * r.nchunks) r with
        | none => none
        | some (samples, _) => some (samples, wF.readTail.1, wF.readTail.2)

theorem DBR.readN_compose {m n : Nat} :
    ∀ {r r1 r2 : DBR} {vs1 vs2 : List (Nat × Nat)},
      DBR.readN m r = some (vs1, r1) → DBR.readN n r1 = some (vs2, r2) →
      DBR.readN (m + n) r = some (vs1 ++ vs2, r2) := by
  induction m with
  | zero =>
    intro r r1 r2 vs1 vs2 h1 h2
    simp only [DBR.readN, Option.some.injEq, Prod.mk.injEq] at h1
    rw [Nat.zero_add, ← h1.1]
    rw [← h1.2] at h2
    simpa using h2
  | succ m ih =>
    intro r r1 r2 vs1 vs2 h1 h2
    rw [show m + 1 + n = (m + n) + 1 by omega]
    rcases hnx : r.next with _ | ⟨s, r'⟩
    · simp only [DBR.readN, hnx] at h1
      exact absurd h1 (by simp)
    · simp only [DBR.readN, hnx] at h1
      rcases hrd : DBR.readN m r' with _ | ⟨vs1', r1'⟩
      · simp only [hrd] at h1
        exact absurd h1 (by simp)
      · simp only [hrd, Option.some.injEq, Prod.mk.injEq] at h1
        obtain ⟨hv1, hr1⟩ := h1
        rw [← hr1] at h2
        have hcomb := ih hrd h2
        simp only [DBR.readN, hnx, hcomb]
        rw [← hv1]
        simp

theorem DBR_update_id (r : DBR) (v : Nat) (h : r.readIndex = v) :
    ({ r with readIndex := v } : DBR) = r := by
  rcases r with ⟨bs, a, b, c, p, t, u, ri, n1, n2, n3, n4⟩
  simp only at h
  rw [h]

/-- Serving the rest of a chunk from the internal buffers: positions
`u..15` come straight out of `tsBuf`/`valBuf`, advancing only
`readIndex`. -/
theorem DBR.readN_buf :
    ∀ (n : Nat) (u : Nat) (r : DBR) (j : Nat),
      u + n = 16 → 1 ≤ u →
      r.readIndex = 16 * j + u → j < r.nchunks →
      DBR.readN n r = some
        ((List.range n).map
            (fun i => (r.tsBuf.getD (u + i) 0, r.valBuf.getD (u + i) 0)),
          { r with readIndex := 16 * j + 16 }) := by
  intro n
  induction n with
  | zero =>
    intro u r j hu _ hri _
    have h16 : u = 16 := by omega
    rw [h16] at hri
    simp only [DBR.readN, List.range_zero, List.map_nil]
    rw [DBR_update_id r _ (by omega)]
  | succ n ih =>
    intro u r j hu hu1 hri hj
    have hnx : r.next = some ((r.tsBuf.getD u 0, r.valBuf.getD u 0),
        { r with readIndex := r.readIndex + 1 }) := by
      rw [DBR.next, if_pos (by omega), if_neg ?hmod]
      case hmod =>
        rw [hri]
        omega
      rw [hri]
      have : (16 * j + u) % 16 = u := by omega
      rw [this]
    simp only [DBR.readN, hnx]
    have hih := ih (u + 1) ({ r with readIndex := r.readIndex + 1 }) j
      (by omega) (by omega) (by simp only; omega) (by simp only; exact hj)
    simp only at hih
    rw [hih]
    simp only [Option.some.injEq, Prod.mk.injEq]
    constructor
    · rw [List.range_succ_eq_map, List.map_cons, List.map_map]
      congr 1
      apply List.map_congr_left
      intro i _
      simp only [Function.comp_apply]
      rw [show u + (i + 1) = u + 1 + i by omega]
    · trivial

theorem cons_range_map (f : Nat → Nat × Nat) (n : Nat) :
    f 0 :: (List.range n).map (fun i => f (1 + i)) = (List.range (n + 1)).map f := by
  rw [List.range_succ_eq_map, List.map_cons, List.map_map]
  congr 1
  apply List.map_congr_left
  intro i _
  simp only [Function.comp_apply]
  rw [Nat.add_comm]

theorem range_map_getD :
    ∀ (c : List (Nat × Nat)) (n : Nat), c.length = n →
      (List.range n).map
          (fun i => ((c.map Prod.fst).getD i 0, (c.map Prod.snd).getD i 0)) = c := by
  intro c
  induction c with
  | nil =>
    intro n hn
    rw [← hn]
    rfl
  | cons x t ih =>
    intro n hn
    rcases n with _ | n
    · simp at hn
    · rw [List.range_succ_eq_map, List.map_cons, List.map_map]
      have hh : ((List.map Prod.fst (x :: t)).getD 0 0,
          (List.map Prod.snd (x :: t)).getD 0 0) = x := by
        simp
      rw [hh]
      congr 1
      have hmap : List.map ((fun i => ((List.map Prod.fst (x :: t)).getD i 0,
          (List.map Prod.snd (x :: t)).getD i 0)) ∘ Nat.succ) (List.range n) =
          List.map (fun i => ((List.map Prod.fst t).getD i 0,
            (List.map Prod.snd t).getD i 0)) (List.range n) := by
        apply List.map_congr_left
        intro i _
        simp only [Function.comp_apply, List.map_cons, List.getD_cons_succ]
      rw [hmap]
      exact ih n (by simpa using hn)

/-- The byte stream of a sequence of sealed chunks: for each chunk, its
Delta+RLE timestamp bytes then its FCM value bytes, with the reader-facing
decode certificates and the predictor/delta threading. -/
inductive ChunkStream :
    Pred → Nat → List Nat → List (List (Nat × Nat)) → Pred → Nat → Prop
  | nil {pred : Pred} {tsPrev : Nat} : ChunkStream pred tsPrev [] [] pred tsPrev
  | cons {pred pred' predF : Pred} {tsPrev tsPrev' tsPrevF : Nat}
      {Δts Δval Δrest : List Nat} {c : List (Nat × Nat)}
      {cs : List (List (Nat × Nat))}
      (hc : c.length = 16)
      (hts : ∀ (rest' : List Nat) (p0 : Nat), ∃ q,
        DRLER.readN 16 ⟨⟨Δts ++ rest', 0, p0⟩, tsPrev⟩ =
          some (c.map Prod.fst, ⟨⟨rest', 0, q⟩, tsPrev'⟩))
      (hval : ∀ rest', fcmReadPairs pred 8 (Δval ++ rest') =
          some (c.map Prod.snd, pred', rest'))
      (hrec : ChunkStream pred' tsPrev' Δrest cs predF tsPrevF) :
      ChunkStream pred tsPrev (Δts ++ (Δval ++ Δrest)) (c :: cs) predF tsPrevF

/-- Reading one sealed chunk through `DataBlockReader::next`: the
boundary call refills the buffers, the 15 following calls serve from
them. -/
theorem DBR_read_chunk
    {c : List (Nat × Nat)} (hc : c.length = 16)
    {Δts Δval rest : List Nat} {r : DBR} {j : Nat}
    {pred' : Pred} {tsPrev' : Nat}
    (hbs : r.bs = Δts ++ (Δval ++ rest))
    (hreps : r.rleReps = 0)
    (hri : r.readIndex = 16 * j) (hj : j < r.nchunks)
    (hts : ∀ (rest' : List Nat) (p0 : Nat), ∃ q,
      DRLER.readN 16 ⟨⟨Δts ++ rest', 0, p0⟩, r.tsPrev⟩ =
        some (c.map Prod.fst, ⟨⟨rest', 0, q⟩, tsPrev'⟩))
    (hval : ∀ rest', fcmReadPairs r.pred 8 (Δval ++ rest') =
        some (c.map Prod.snd, pred', rest')) :
    ∃ q, DBR.readN 16 r = some (c,
      ⟨rest, 0, q, tsPrev', pred', c.map Prod.fst, c.map Prod.snd,
        16 * j + 16, r.nchunks, r.ntail, r.id, r.version⟩) := by
  obtain ⟨q, hq⟩ := hts (Δval ++ rest) r.rlePrev
  refine ⟨q, ?_⟩
  have hnx : r.next = some
      (((c.map Prod.fst).getD 0 0, (c.map Prod.snd).getD 0 0),
        ⟨rest, 0, q, tsPrev', pred', c.map Prod.fst, c.map Prod.snd,
          16 * j + 1, r.nchunks, r.ntail, r.id, r.version⟩) := by
    rw [DBR.next, if_pos (by omega), if_pos (by omega)]
    rw [hbs, hreps, hq]
    dsimp only
    rw [hval rest]
    dsimp only
    rw [hri]
  have hread15 := DBR.readN_buf 15 1
    (⟨rest, 0, q, tsPrev', pred', c.map Prod.fst, c.map Prod.snd,
      16 * j + 1, r.nchunks, r.ntail, r.id, r.version⟩ : DBR) j
    (by omega) (by omega) (by simp only) (by simp only; exact hj)
  simp only at hread15
  rw [show (16 : Nat) = 15 + 1 by omega, Nat.add_comm 15 1]
  have hone : DBR.readN 1 r =
      some ([((c.map Prod.fst).getD 0 0, (c.map Prod.snd).getD 0 0)],
        ⟨rest, 0, q, tsPrev', pred', c.map Prod.fst, c.map Prod.snd,
          16 * j + 1, r.nchunks, r.ntail, r.id, r.version⟩) := by
    simp only [DBR.readN, hnx]
  have := DBR.readN_compose hone hread15
  rw [this]
  congr 1
  have hfold : ((c.map Prod.fst).getD 0 0, (c.map Prod.snd).getD 0 0) ::
      (List.range 15).map (fun i =>
        ((c.map Prod.fst).getD (1 + i) 0, (c.map Prod.snd).getD (1 + i) 0)) = c := by
    rw [cons_range_map (fun i => ((c.map Prod.fst).getD i 0,
      (c.map Prod.snd).getD i 0)) 15]
    exact range_map_getD c 16 hc
  rw [List.singleton_append, hfold]

/-- Reading a whole `ChunkStream` returns the concatenation of its
chunks. -/
theorem readChunks :
    ∀ {CS : List (List (Nat × Nat))} {pred : Pred} {tsPrev : Nat}
      {Δ : List Nat} {predF : Pred} {tsF : Nat},
      ChunkStream pred tsPrev Δ CS predF tsF →
      ∀ (r : DBR) (rest : List Nat) (j : Nat),
        r.bs = Δ ++ rest → r.rleReps = 0 → r.tsPrev = tsPrev → r.pred = pred →
        r.readIndex = 16 * j → j + CS.length ≤ r.nchunks →
        ∃ rF, DBR.readN (16 * CS.length) r = some (CS.join, rF) := by
  intro CS pred tsPrev Δ predF tsF h
  induction h with
  | nil =>
    intro r rest j _ _ _ _ _ _
    exact ⟨r, rfl⟩
  | @cons pred pred' predF tsPrev tsPrev' tsPrevF Δts Δval Δrest c cs hc hts hval hrec ih =>
    intro r rest j hbs hreps htsp hpred hri hn
    rw [← htsp] at hts
    rw [← hpred] at hval
    have hbs' : r.bs = Δts ++ (Δval ++ (Δrest ++ rest)) := by
      rw [hbs]
      simp [List.append_assoc]
    obtain ⟨q, hq⟩ := DBR_read_chunk hc hbs' hreps hri (by
      simp only [List.length_cons] at hn
      omega) hts hval
    set r1 : DBR := ⟨Δrest ++ rest, 0, q, tsPrev', pred', c.map Prod.fst,
      c.map Prod.snd, 16 * j + 16, r.nchunks, r.ntail, r.id, r.version⟩ with hr1
    obtain ⟨rF, hrF⟩ := ih r1 rest (j + 1) (by rw [hr1]) (by rw [hr1])
      (by rw [hr1]) (by rw [hr1]) (by rw [hr1]; simp only; omega)
      (by rw [hr1]; simp only [List.length_cons] at hn; simp only; omega)
    refine ⟨rF, ?_⟩
    have hlen : 16 * (c :: cs).length = 16 + 16 * cs.length := by
      simp only [List.length_cons]
      omega
    rw [hlen]
    have hcomb := DBR.readN_compose hq hrF
    rw [hcomb]
    simp

theorem fcmPairBytes_wf :
    ∀ (n : Nat) (vals : List Nat) (pred : Pred), vals.length ≤ n →
      PredWF pred → (∀ v ∈ vals, v < 2 ^ 64) →
      PredWF (fcmPairBytes pred vals).2 := by
  intro n
  induction n with
  | zero =>
    intro vals pred hn hwf _
    have : vals = [] := List.eq_nil_of_length_eq_zero (by omega)
    subst this
    exact hwf
  | succ n ih =>
    intro vals pred hn hwf hv
    rcases vals with _ | ⟨v1, vals1⟩
    · exact hwf
    rcases vals1 with _ | ⟨v2, vrest⟩
    · simp only [fcmPairBytes]
      exact Pred.update_wf hwf (hv v1 (by simp))
    · have hwf2 : PredWF ((pred.update v1).update v2) :=
        Pred.update_wf (Pred.update_wf hwf (hv v1 (by simp))) (hv v2 (by simp))
      have hrec := ih vrest ((pred.update v1).update v2)
        (by simp only [List.length_cons] at hn; omega) hwf2
        (fun x hx => hv x (by simp [hx]))
      rcases hfb : fcmPairBytes ((pred.update v1).update v2) vrest with ⟨tb, pf⟩
      rw [hfb] at hrec
      have : fcmPairBytes pred (v1 :: v2 :: vrest) =
          (((lzBytes (v1 ^^^ pred.predict) <<< 4) ||| lzBytes (v2 ^^^ (pred.update v1).predict)) ::
            (writeBytesLE (8 - lzBytes (v1 ^^^ pred.predict)) (v1 ^^^ pred.predict) ++
              writeBytesLE (8 - lzBytes (v2 ^^^ (pred.update v1).predict))
                (v2 ^^^ (pred.update v1).predict)) ++ tb, pf) := by
        rw [fcmPairBytes]
        rw [hfb]
      rw [this]
      exact hrec

/-- Buffering puts: while fewer than 16 samples are accumulated, `put`
only appends to the scratch arrays. -/
theorem putAll_buffering :
    ∀ (xs : List (Nat × Nat)) (w : DBW) (rest : List (Nat × Nat)),
      w.sTs.length + xs.length < 16 →
      writeAll w (xs ++ rest) =
        writeAll { w with sTs := w.sTs ++ xs.map Prod.fst,
                          sVal := w.sVal ++ xs.map Prod.snd } rest := by
  intro xs
  induction xs with
  | nil =>
    intro w rest _
    simp only [List.nil_append, List.map_nil, List.append_nil]
  | cons s xs' ih =>
    rcases s with ⟨ts, v⟩
    intro w rest hlen
    have hput : DBW.put w ts v =
        (AkuStatus.success, { w with sTs := w.sTs ++ [ts], sVal := w.sVal ++ [v] }) := by
      rw [DBW.put]
      rw [if_neg ?hne]
      case hne =>
        simp only [List.length_append, List.length_cons, List.length_nil]
        simp only [List.length_cons] at hlen
        omega
    simp only [List.cons_append, List.append_eq, writeAll, hput]
    have hih := ih { w with sTs := w.sTs ++ [ts], sVal := w.sVal ++ [v] } rest
      (by simp only [List.length_append, List.length_cons, List.length_nil]
          simp only [List.length_cons] at hlen
          omega)
    simp only at hih
    rw [hih]
    congr 1 <;> simp

theorem writeAll_spec :
    ∀ (k : Nat) (S : List (Nat × Nat)) (w wF : DBW),
      S.length / 16 = k →
      w.sTs = [] → w.sVal = [] →
      w.tsPrev < 2 ^ 64 → PredWF w.pred →
      (∀ s ∈ S, s.1 < 2 ^ 64) → (∀ s ∈ S, s.2 < 2 ^ 64) →
      writeAll w S = some wF →
      wF.id = w.id ∧ wF.bw.cap = w.bw.cap ∧
      wF.nchunks = w.nchunks + k ∧
      wF.sTs = (S.drop (16 * k)).map Prod.fst ∧
      wF.sVal = (S.drop (16 * k)).map Prod.snd ∧
      ∃ Δ CS, wF.bw.out = w.bw.out ++ Δ ∧
        ChunkStream w.pred w.tsPrev Δ CS wF.pred wF.tsPrev ∧
        CS.join = S.take (16 * k) ∧ CS.length = k := by
  intro k
  induction k with
  | zero =>
    intro S w wF hk hsTs hsVal htsp hwf hva hvb hw
    have hlen : S.length < 16 := by omega
    have hpp := putAll_buffering S w [] (by rw [hsTs]; simpa using hlen)
    rw [List.append_nil] at hpp
    rw [hpp] at hw
    simp only [writeAll, Option.some.injEq] at hw
    rw [← hw]
    refine ⟨rfl, rfl, by simp, ?_, ?_, [], [], by simp, ?_, by simp, rfl⟩
    · simp only [Nat.mul_zero, List.drop_zero]
      rw [hsTs]
      simp
    · simp only [Nat.mul_zero, List.drop_zero]
      rw [hsVal]
      simp
    · exact ChunkStream.nil
  | succ k ih =>
    intro S w wF hk hsTs hsVal htsp hwf hva hvb hw
    have hlen16 : 16 ≤ S.length := by omega
    have hcS : S.take 16 ++ S.drop 16 = S := List.take_append_drop 16 S
    have hclen : (S.take 16).length = 16 := by
      simp only [List.length_take]
      omega
    have hcne : S.take 16 ≠ [] := by
      intro h
      rw [h] at hclen
      simp at hclen
    have hcsplit : (S.take 16).dropLast ++ [(S.take 16).getLast hcne] = S.take 16 :=
      List.dropLast_append_getLast hcne
    have hc15len : (S.take 16).dropLast.length = 15 := by
      rw [List.length_dropLast, hclen]
    rcases hclpair : (S.take 16).getLast hcne with ⟨cts, cv⟩
    rw [← hcS, ← hcsplit, hclpair, List.append_assoc] at hw
    rw [putAll_buffering _ w _ (by rw [hsTs]; simp only [List.length_nil, hc15len]; omega)] at hw
    rw [hsTs, hsVal] at hw
    simp only [List.nil_append, List.singleton_append, writeAll] at hw
    have hmapf : ((S.take 16).dropLast).map Prod.fst ++ [cts] = (S.take 16).map Prod.fst := by
      rw [← hcsplit, hclpair]
      simp
    have hmaps : ((S.take 16).dropLast).map Prod.snd ++ [cv] = (S.take 16).map Prod.snd := by
      rw [← hcsplit, hclpair]
      simp
    by_cases hguard : CHUNK_RESERVE ≤ w.bw.spaceLeft
    · have hputEq : DBW.put
          { w with sTs := ((S.take 16).dropLast).map Prod.fst,
                   sVal := ((S.take 16).dropLast).map Prod.snd } cts cv =
          (match DRLEW.tputB ⟨⟨w.bw, 0, 0⟩, w.tsPrev⟩ ((S.take 16).map Prod.fst) with
           | (true, st') =>
             (match fcmTput st'.rle.bw w.pred ((S.take 16).map Prod.snd) with
              | some (bw', pred') =>
                (AkuStatus.success, ⟨w.id, bw', st'.prev, pred', [], [], w.nchunks + 1⟩)
              | none => (AkuStatus.overflow,
                  { w with sTs := ((S.take 16).dropLast).map Prod.fst,
                           sVal := ((S.take 16).dropLast).map Prod.snd }))
           | (false, _) => (AkuStatus.overflow,
               { w with sTs := ((S.take 16).dropLast).map Prod.fst,
                        sVal := ((S.take 16).dropLast).map Prod.snd })) := by
        rw [DBW.put]
        dsimp only
        rw [hmapf, hmaps,
          if_pos (show (List.map Prod.fst (List.take 16 S)).length = 16 by
            rw [List.length_map, hclen]),
          if_pos hguard]
      rw [hputEq] at hw
      rcases htput : DRLEW.tputB ⟨⟨w.bw, 0, 0⟩, w.tsPrev⟩ ((S.take 16).map Prod.fst)
        with ⟨ok, st'⟩
      rw [htput] at hw
      cases ok with
      | false => simp at hw
      | true =>
        dsimp only at hw
        rcases hfcm : fcmTput st'.rle.bw w.pred ((S.take 16).map Prod.snd)
          with _ | ⟨bw', pred'⟩
        · rw [hfcm] at hw
          simp at hw
        · rw [hfcm] at hw
          dsimp only at hw
          have hv16f : ∀ v ∈ (S.take 16).map Prod.fst, v < 2 ^ 64 := by
            intro v hv
            obtain ⟨s, hs, hsv⟩ := List.mem_map.mp hv
            rw [← hsv]
            exact hva s (List.mem_of_mem_take hs)
          have hv16s : ∀ v ∈ (S.take 16).map Prod.snd, v < 2 ^ 64 := by
            intro v hv
            obtain ⟨s, hs, hsv⟩ := List.mem_map.mp hv
            rw [← hsv]
            exact hvb s (List.mem_of_mem_take hs)
          obtain ⟨hrp', hrr', hcap', hprev', hprevlt', Δts, hout', hcert⟩ :=
            @dtput_chunk ⟨⟨w.bw, 0, 0⟩, w.tsPrev⟩ st' ((S.take 16).map Prod.fst)
              rfl rfl htsp hv16f
              (by rw [List.length_map, hclen]; norm_num) htput
          rcases hfb : fcmPairBytes w.pred ((S.take 16).map Prod.snd)
            with ⟨fbytes, fpred⟩
          simp only [fcmTput] at hfcm
          rw [hfb] at hfcm
          dsimp only at hfcm
          by_cases hsp : fbytes.length ≤ st'.rle.bw.spaceLeft
          case neg =>
            rw [if_neg hsp] at hfcm
            exact absurd hfcm (by simp)
          rw [if_pos hsp] at hfcm
          simp only [Option.some.injEq, Prod.mk.injEq] at hfcm
          obtain ⟨hbw', hfp⟩ := hfcm
          subst hbw'
          subst hfp
          have hwfF : PredWF fpred := by
            have := fcmPairBytes_wf 16 ((S.take 16).map Prod.snd) w.pred
              (by rw [List.length_map, hclen]) hwf hv16s
            rwa [hfb] at this
          have hts16 : ∀ (rest' : List Nat) (p0 : Nat), ∃ q,
              DRLER.readN 16 ⟨⟨Δts ++ rest', 0, p0⟩, w.tsPrev⟩ =
                some ((S.take 16).map Prod.fst, ⟨⟨rest', 0, q⟩, st'.prev⟩) := by
            intro rest' p0
            have h := hcert rest' p0
            rwa [List.length_map, hclen] at h
          have hval16 : ∀ rest', fcmReadPairs w.pred 8 (fbytes ++ rest') =
              some ((S.take 16).map Prod.snd, fpred, rest') := by
            intro rest'
            have h := fcmReadPairs_roundtrip 8 ((S.take 16).map Prod.snd) w.pred
              (by rw [List.length_map, hclen]) hv16s hwf rest'
            rwa [hfb] at h
          have hih := ih (S.drop 16)
            ⟨w.id, ⟨st'.rle.bw.cap, st'.rle.bw.out ++ fbytes⟩, st'.prev, fpred,
              [], [], w.nchunks + 1⟩ wF
            (by simp only [List.length_drop]; omega) rfl rfl hprevlt' hwfF
            (fun s hs => hva s (List.mem_of_mem_drop hs))
            (fun s hs => hvb s (List.mem_of_mem_drop hs)) hw
          obtain ⟨hid, hcapF, hnchF, hsTsF, hsValF, Δr, CS, houtF, hcs, hjoin, hcslen⟩ := hih
          refine ⟨hid, ?_, by rw [hnchF]; dsimp only; omega, ?_, ?_,
            Δts ++ (fbytes ++ Δr), (S.take 16) :: CS, ?_, ?_, ?_, by simp [hcslen]⟩
          · rw [hcapF]
            exact hcap'
          · rw [hsTsF]
            congr 1
            rw [List.drop_drop]
            congr 1
            ring
          · rw [hsValF]
            congr 1
            rw [List.drop_drop]
            congr 1
            ring
          · rw [houtF]
            dsimp only
            rw [hout']
            simp [List.append_assoc]
          · exact ChunkStream.cons hclen hts16 hval16 hcs
          · have hj : ((S.take 16) :: CS).join = S.take 16 ++ CS.join := rfl
            rw [hj, hjoin]
            have h16 : 16 * (k + 1) = 16 + 16 * k := by ring
            rw [h16, List.take_add]
    · have hput : DBW.put
          { w with sTs := ((S.take 16).dropLast).map Prod.fst,
                   sVal := ((S.take 16).dropLast).map Prod.snd } cts cv =
          (AkuStatus.overflow,
            { w with sTs := ((S.take 16).dropLast).map Prod.fst,
                     sVal := ((S.take 16).dropLast).map Prod.snd }) := by
        rw [DBW.put]
        dsimp only
        rw [hmapf,
          if_pos (show (List.map Prod.fst (List.take 16 S)).length = 16 by
            rw [List.length_map, hclen]),
          if_neg hguard]
      rw [hput] at hw
      simp at hw

/-- Samples for exercising the full block pipeline: 19 samples, one full
chunk of 16 plus a tail of 3. -/
def c1Samples : List (Nat × Nat) :=
  [(1000, 11), (1001, 22), (1002, 33), (1005, 44), (1005, 55), (1010, 66),
   (1020, 77), (1020, 88), (1021, 99), (1030, 110), (1031, 121), (1040, 132),
   (1041, 143), (1050, 154), (1051, 165), (1060, 2 ^ 63 + 17),
   (1061, 5), (1062, 6), (1063, 7)]

/-- C1 (block round-trip): for a sample sequence with non-decreasing
timestamps that the writer accepts in full (every `put` succeeds),
committing and re-reading the sealed block yields exactly the samples of
`S` minus its last `ntail = |S| mod 16` elements, in order and bit-exact,
and the writer-side tail accessor holds exactly those `ntail` elements. -/
theorem claim_C1_block_roundtrip
    (id B : Nat) (S : List (Nat × Nat))
    (hid : id < 2 ^ 64) (hSlen : S.length < 2 ^ 20)
    (hmono : List.Chain' (fun a b => a ≤ b) (S.map Prod.fst))
    (hva : ∀ s ∈ S, s.1 < 2 ^ 64) (hvb : ∀ s ∈ S, s.2 < 2 ^ 64)
    (hok : ((DBW.mk? id B).bind (fun w0 => writeAll w0 S)).isSome = true) :
    blockRoundtrip id B S =
      some (S.take (16 * (S.length / 16)),
        (S.drop (16 * (S.length / 16))).map Prod.fst,
        (S.drop (16 * (S.length / 16))).map Prod.snd) := by
  rcases hmk : DBW.mk? id B with _ | w0
  · rw [hmk] at hok
    simp at hok
  rw [hmk] at hok
  simp only [Option.some_bind] at hok
  rcases hw : writeAll w0 S with _ | wF
  · rw [hw] at hok
    simp at hok
  rw [DBW.mk?] at hmk
  by_cases hB : 14 + CHUNK_RESERVE ≤ B
  case neg =>
    rw [if_neg hB] at hmk
    exact absurd hmk (by simp)
  rw [if_pos hB] at hmk
  simp only [Option.some.injEq] at hmk
  subst hmk
  obtain ⟨hidF, hcapF, hnchF, hsTsF, hsValF, Δ, CS, houtF, hcs, hjoin, hcslen⟩ :=
    writeAll_spec (S.length / 16) S _ wF rfl rfl rfl (by norm_num) Pred.init_wf
      hva hvb hw
  have hidw : wF.id = id := hidF.trans rfl
  have hnch : wF.nchunks = S.length / 16 := by
    rw [hnchF]
    simp
  have hout : wF.bw.out = Δ := by
    rw [houtF]
    simp
  have hntail : wF.sTs.length = S.length - 16 * (S.length / 16) := by
    rw [hsTsF, List.length_map, List.length_drop]
  have hnt15 : wF.sTs.length ≤ 15 := by
    rw [hntail]
    omega
  have hklt : S.length / 16 < 65536 := by omega
  have hcommit : wF.commit =
      1 :: 0 :: (S.length / 16 % 256) :: (S.length / 16 / 256 % 256) ::
        wF.sTs.length :: 0 :: (writeBytesLE 8 id ++ Δ) := by
    rw [DBW.commit, mkHeader, hidw, hnch, hout]
    have h1 : (1 : Nat) % 256 = 1 := by norm_num
    have h2 : (1 : Nat) / 256 % 256 = 0 := by norm_num
    have h3 : wF.sTs.length % 256 = wF.sTs.length := by omega
    have h4 : wF.sTs.length / 256 % 256 = 0 := by omega
    rw [h1, h2, h3, h4]
    simp [List.append_assoc]
  have hmkr : DBR.mk? wF.commit =
      some ⟨Δ, 0, 0, 0, Pred.init, [], [], 0, S.length / 16,
        wF.sTs.length, id, 1⟩ := by
    rw [hcommit]
    simp only [DBR.mk?]
    rw [readBytesLE_write 8 id (by simpa using hid) Δ]
    dsimp only
    rw [if_pos ⟨by norm_num, by omega⟩]
    have hn : S.length / 16 % 256 + 256 * (S.length / 16 / 256 % 256) =
        S.length / 16 := by omega
    rw [hn]
    norm_num
  obtain ⟨rF, hread⟩ := readChunks hcs
    (⟨Δ, 0, 0, 0, Pred.init, [], [], 0, S.length / 16,
      wF.sTs.length, id, 1⟩ : DBR) [] 0
    (by simp) rfl rfl rfl (by norm_num) (by simp [hcslen])
  rw [hcslen] at hread
  have hmk' : DBW.mk? id B = some ⟨id, ⟨B - 14, []⟩, 0, Pred.init, [], [], 0⟩ := by
    rw [DBW.mk?, if_pos hB]
  simp only [blockRoundtrip]
  rw [hmk']
  dsimp only
  rw [hw]
  dsimp only
  rw [hmkr]
  dsimp only
  rw [hread]
  dsimp only [DBW.readTail]
  rw [hjoin, hsTsF, hsValF]

/-- C1 witness: the 19-sample series round-trips through a 4096-byte
block; the sealed block returns the first 16 samples and the tail
accessor the last 3. -/
theorem claim_C1_witness :
    blockRoundtrip 7 4096 c1Samples =
      some (c1Samples.take (16 * (c1Samples.length / 16)),
        (c1Samples.drop (16 * (c1Samples.length / 16))).map Prod.fst,
        (c1Samples.drop (16 * (c1Samples.length / 16))).map Prod.snd) :=
  claim_C1_block_roundtrip 7 4096 c1Samples (by decide) (by decide)
    (by norm_num [c1Samples, List.chain'_cons]) (by decide) (by decide) (by decide)

end Akumuli
